import Mathlib

/-!
# Verification of LAGraph_bc_batch (batched Brandes betweenness centrality)

A shallow embedding of `Source/Algorithm/LAGraph_bc_batch.c` and
`src/utility/LAGraph_Vector_print.c`.

Conventions of the embedding:
* A GraphBLAS sparse n-by-ns matrix is a function `Fin n → Fin ns → Option α`;
  `none` means the entry is structurally absent.
* The input graph `A_matrix` is "treated as if boolean in semiring" (quote from
  the source header), so it is embedded as `A : Fin n → Fin n → Bool` whose
  present entries have numeric value 1 in the INT64 semiring.
* `GrB_INT64` path counts are modelled as `ℕ` (they are sums of products of
  nonnegative values and never overflow on the graphs considered here);
  `GrB_FP64` values are modelled as exact rationals `ℚ` (idealized real
  arithmetic, the standard reading of the numerical claims of the spec).
* A valued (non-structural) GraphBLAS mask admits a position iff the entry is
  present and its value is nonzero (for Bool masks: present and `true`).
  The `GrB_SCMP` descriptor complements that predicate.
* The do-while BFS loop is embedded as a fueled loop `runF`; sufficiency of the
  fuel (that is, termination of the C loop) is proved, and the result is shown
  to be independent of the fuel beyond the proven bound.
-/

set_option maxHeartbeats 1600000

namespace LAGraphBC

/-- Shared GraphBLAS status codes used by the embedded functions. -/
inductive GrBInfo
  | success
  | nullPointer
  | indexOutOfBounds
  | notImplemented
  deriving DecidableEq, Repr

/-! ## Reference graph theory: walk counting, distances, shortest-path counts

These definitions form the *specification side* of claim C1: classical
betweenness centrality computed by brute force from the adjacency structure. -/

/-- Number of directed walks of length `ℓ` from `s` to `t` in the graph `A`
(a walk of length `ℓ` visits `ℓ+1` vertices, consecutive ones joined by edges). -/
def walkCount (n : ℕ) (A : Fin n → Fin n → Bool) : Fin n → Fin n → ℕ → ℕ
  | s, t, 0 => if s = t then 1 else 0
  | s, t, ℓ + 1 => ∑ u : Fin n, if A s u then walkCount n A u t ℓ else 0

/-- Least `m < b` with `p m`, if any: a bounded minimization combinator. -/
def firstHit (p : ℕ → Bool) : ℕ → Option ℕ
  | 0 => none
  | b + 1 =>
    match firstHit p b with
    | some m => some m
    | none => if p b then some b else none

/-- BFS distance from `s` to `t`: the least walk length with a nonzero walk
count, `none` if `t` is unreachable from `s`.  Searching lengths `< n`
suffices (proved below: any walk can be shortened below `n`). -/
def dist (n : ℕ) (A : Fin n → Fin n → Bool) (s t : Fin n) : Option ℕ :=
  firstHit (fun ℓ => walkCount n A s t ℓ != 0) n

/-- Count `sigma s t` = number of shortest walks (= shortest paths) from `s` to `t`;
`0` if `t` is unreachable from `s`. -/
def sigma (n : ℕ) (A : Fin n → Fin n → Bool) (s t : Fin n) : ℕ :=
  match dist n A s t with
  | some d => walkCount n A s t d
  | none => 0

/-- Number of walks of length `ℓ` from `s` to `t` that visit the vertex `v`
(at any position, endpoints included). -/
def visitCount (n : ℕ) (A : Fin n → Fin n → Bool) : Fin n → Fin n → Fin n → ℕ → ℕ
  | s, t, v, 0 => if s = t ∧ v = s then 1 else 0
  | s, t, v, ℓ + 1 =>
    if v = s then walkCount n A s t (ℓ + 1)
    else ∑ u : Fin n, if A s u then visitCount n A u t v ℓ else 0

/-- Vertices that reach `t` by a walk of length at most `ℓ` (auxiliary for the
proof that any walk can be shortened to length `< n`). -/
def reachSet (n : ℕ) (A : Fin n → Fin n → Bool) (t : Fin n) (ℓ : ℕ) : Finset (Fin n) :=
  Finset.univ.filter (fun s => (List.range (ℓ + 1)).any (fun m => walkCount n A s t m != 0))

/-- Addition of optional distances (`none` = unreachable). -/
def distAdd : Option ℕ → Option ℕ → Option ℕ
  | some a, some b => some (a + b)
  | _, _ => none

/-- Count `sigmaVia s t v` = `sigma(s,t|v)`: the number of shortest paths from `s`
to `t` that pass through `v` as an interior vertex (so `0` when `v` is an
endpoint or when `t` is unreachable). -/
def sigmaVia (n : ℕ) (A : Fin n → Fin n → Bool) (s t v : Fin n) : ℕ :=
  if v = s ∨ v = t then 0
  else
    match dist n A s t with
    | some d => visitCount n A s t v d
    | none => 0

/-- Classical exact betweenness centrality of node `i`:
`Σ_{s ≠ i ≠ t} sigma(s,t|i) / sigma(s,t)` (terms with `sigma(s,t) = 0`
contribute `0`, matching the convention that unreachable pairs are skipped). -/
def bcRef (n : ℕ) (A : Fin n → Fin n → Bool) (i : Fin n) : ℚ :=
  ∑ s : Fin n, ∑ t : Fin n, (sigmaVia n A s t i : ℚ) / (sigma n A s t : ℚ)

/-- Per-source dependency of Brandes' algorithm, defined by its brute-force
meaning: `delta s v = Σ_t sigma(s,t|v)/sigma(s,t)`. -/
def delta (n : ℕ) (A : Fin n → Fin n → Bool) (s v : Fin n) : ℚ :=
  ∑ t : Fin n, (sigmaVia n A s t v : ℚ) / (sigma n A s t : ℚ)

/-! ## The embedded algorithm: sparse containers and GraphBLAS operations -/

/-- A sparse `n × ns` GraphBLAS matrix with entries of type `α`. -/
abbrev Mat (n ns : ℕ) (α : Type) := Fin n → Fin ns → Option α

section Core

variable (n ns : ℕ) (A : Fin n → Fin n → Bool) (srcs : Fin ns → Fin n)

/-- Valued-mask test for an INT64 matrix: position admitted iff the entry is
present with a nonzero value. -/
def maskNZ (M : Mat n ns ℕ) (v : Fin n) (j : Fin ns) : Bool :=
  match M v j with
  | some c => c != 0
  | none => false

/-- Valued-mask test for a Bool matrix: present with value `true`. -/
def maskT (S : Mat n ns Bool) (v : Fin n) (j : Fin ns) : Bool :=
  match S v j with
  | some b => b
  | none => false

/-- Operation `GrB_eWiseAdd` with the PLUS monoid on INT64: union pattern, values added
where both operands are present. -/
def ewiseAddN (f g : Mat n ns ℕ) : Mat n ns ℕ := fun v j =>
  match f v j, g v j with
  | some a, some b => some (a + b)
  | some a, none => some a
  | none, some b => some b
  | none, none => none

/-- Operation `GrB_mxm(frontier, paths, NULL, GxB_PLUS_TIMES_INT64, A, frontier,
desc_tsr)`: compute `A' +.* F` (first input transposed) with the structural
complement of the valued mask `paths`, output replaced.  An output entry is
present iff the mask admits it and some semiring term exists; entries of `A`
have value 1 (boolean graph). -/
def mxmFwd (paths F : Mat n ns ℕ) : Mat n ns ℕ := fun v j =>
  if maskNZ n ns paths v j then none
  else if ∃ u : Fin n, A u v ∧ (F u j).isSome then
    some (∑ u : Fin n, if A u v then (F u j).getD 0 else 0)
  else none

/-- Operation `GrB_apply(S, NULL, NULL, GrB_IDENTITY_BOOL, frontier, NULL)`: snapshot of
the frontier, INT64 values typecast to Bool (nonzero ↦ `true`). -/
def applyBool (F : Mat n ns ℕ) : Mat n ns Bool := fun v j =>
  (F v j).map (fun c => c != 0)

/-- State of the breadth-first search stage: the `paths` matrix, the current
`frontier`, the array `S_array` of recorded depth matrices (as a list, index
`i` = depth `i`), and the `depth` counter. -/
structure FState (n ns : ℕ) where
  paths : Mat n ns ℕ
  frontier : Mat n ns ℕ
  hist : List (Mat n ns Bool)
  depth : ℕ

/-- The loop condition `sum == 0`: the advanced frontier has no entries. -/
abbrev frontierEmpty (st : FState n ns) : Prop :=
  ∀ (v : Fin n) (j : Fin ns), st.frontier v j = none

/-- One body of the do-while BFS loop, in source order: record
`S_array[depth]`, accumulate `paths += frontier`, advance
`frontier<!paths> = A' +.* frontier`, increment `depth`. -/
def stepF (st : FState n ns) : FState n ns :=
  let S := applyBool n ns st.frontier
  let p := ewiseAddN n ns st.paths st.frontier
  let f := mxmFwd n ns A p st.frontier
  { paths := p, frontier := f, hist := st.hist ++ [S], depth := st.depth + 1 }

/-- The do-while loop `do { ... } while (sum)`, with explicit fuel: the body
always executes at least once, and the loop exits as soon as the advanced
frontier is empty.  Fuel sufficiency is proved below (`fwdRun_spec`). -/
def runF : ℕ → FState n ns → FState n ns
  | 0, st => st
  | fuel + 1, st =>
    if frontierEmpty n ns (stepF n ns A st) then stepF n ns A st
    else runF fuel (stepF n ns A st)

/-- The depth matrix the loop records at depth `d`: `true` at exactly the
pairs first discovered at BFS distance `d + 1` (proved below to equal
`S_array[d]`). -/
def Sspec (d : ℕ) : Mat n ns Bool := fun v j =>
  if dist n A (srcs j) v = some (d + 1) then some true else none

/-- Initialization `paths[srcs[i], i] = 1` for each source column `i` (`GrB_Matrix_build`
with pairwise distinct column indices, so the dup operator never fires). -/
def paths0 : Mat n ns ℕ := fun v j => if srcs j = v then some 1 else none

/-- Operation `GrB_extract(frontier, paths, NULL, A, GrB_ALL, n, sources, num_sources,
desc_tsr)`: column `j` of `A'` restricted to the source list, masked by the
structural complement of the valued mask `paths`, output replaced. -/
def frontierInit : Mat n ns ℕ := fun v j =>
  if maskNZ n ns (paths0 n ns srcs) v j then none
  else if A (srcs j) v then some 1 else none

/-- The state entering the BFS loop. -/
def st0 : FState n ns :=
  { paths := paths0 n ns srcs
    frontier := frontierInit n ns A srcs
    hist := []
    depth := 0 }

/-- The completed breadth-first search stage (fuel `n + 1` is proved
sufficient below). -/
def fwdRun : FState n ns := runF n ns A (n + 1) (st0 n ns A srcs)

/-- The final `paths` matrix. -/
def pathsF : Mat n ns ℕ := (fwdRun n ns A srcs).paths

/-- The final array of depth matrices `S_array[0 .. depth-1]`. -/
def histF : List (Mat n ns Bool) := (fwdRun n ns A srcs).hist

/-- The final value of the `depth` counter. -/
def depthF : ℕ := (fwdRun n ns A srcs).depth

/-- Access to `S_array[i]`. -/
def SAt (i : ℕ) : Mat n ns Bool := (histF n ns A srcs).getD i (fun _ _ => none)

/-- Operation `GrB_apply(inv_paths, NULL, NULL, GrB_MINV_FP64, paths, NULL)`:
`inv_paths = 1 ./ paths`, values typecast INT64 → FP64. -/
def invPathsF : Mat n ns ℚ := fun v j =>
  (pathsF n ns A srcs v j).map (fun c => ((c : ℚ))⁻¹)

/-- The `paths` matrix typecast to FP64, as consumed by the FP64 eWiseMult of
the backward stage. -/
def pathsQ : Mat n ns ℚ := fun v j =>
  (pathsF n ns A srcs v j).map (fun c => (c : ℚ))

/-- Matrix `bc_update` initialized to the dense constant 1.0
(`GrB_assign(bc_update, NULL, NULL, 1.0, GrB_ALL, n, GrB_ALL, num_sources, NULL)`). -/
def bcInit : Mat n ns ℚ := fun _ _ => some 1

/-- Line 1 of the backward loop body:
`GrB_eWiseMult(temp, S_array[i], NULL, GxB_PLUS_TIMES_FP64, bc_update,
inv_paths, replace)` — `temp<S_array[i]> = bc_update .* inv_paths`, masked,
output replaced. -/
def backTemp1 (i : ℕ) (bc : Mat n ns ℚ) : Mat n ns ℚ := fun w j =>
  if maskT n ns (SAt n ns A srcs i) w j then
    match bc w j, invPathsF n ns A srcs w j with
    | some a, some b => some (a * b)
    | _, _ => none
  else none

/-- Line 2 of the backward loop body:
`GrB_mxm(temp, S_array[i-1], NULL, GxB_PLUS_TIMES_FP64, A_matrix, temp,
replace)` — `temp<S_array[i-1]> = A +.* temp`, masked, output replaced. -/
def backTemp2 (i : ℕ) (bc : Mat n ns ℚ) : Mat n ns ℚ := fun v j =>
  if maskT n ns (SAt n ns A srcs (i - 1)) v j ∧
      (∃ w : Fin n, A v w ∧ (backTemp1 n ns A srcs i bc w j).isSome) then
    some (∑ w : Fin n, if A v w then (backTemp1 n ns A srcs i bc w j).getD 0 else 0)
  else none

/-- One iteration of the backward (centrality update) loop at depth index `i`,
in source order; line 3 is
`GrB_eWiseMult(bc_update, NULL, GrB_PLUS_FP64, GxB_TIMES_FP64_MONOID, temp,
paths, NULL)` — `bc_update += temp .* paths` (intersection pattern, PLUS
accumulator, no mask). -/
def backStep (i : ℕ) (bc : Mat n ns ℚ) : Mat n ns ℚ := fun v j =>
  match backTemp2 n ns A srcs i bc v j, pathsQ n ns A srcs v j with
  | some t, some p => some ((bc v j).getD 0 + t * p)
  | _, _ => bc v j

/-- The value the backward stage holds at `(v, j)` once all levels `≥ i` have
been processed (specification used by the backward invariant): `1 + delta`
for pairs at finite distance `≥ i`, and the untouched initial `1` elsewhere. -/
def bcVal (i : ℕ) (v : Fin n) (j : Fin ns) : ℚ :=
  match dist n A (srcs j) v with
  | some d => if i ≤ d then 1 + delta n A (srcs j) v else 1
  | none => 1

/-- The backward loop `for (i = depth-1; i > 0; i--)`: `processFrom d`
executes the body at indices `d, d-1, ..., 1` (and does nothing for `d = 0`). -/
def processFrom : ℕ → Mat n ns ℚ → Mat n ns ℚ
  | 0, bc => bc
  | i + 1, bc => processFrom i (backStep n ns A srcs (i + 1) bc)

/-- The final `bc_update` matrix. -/
def bcFinal : Mat n ns ℚ :=
  processFrom n ns A srcs (depthF n ns A srcs - 1) (bcInit n ns)

/-- Operation `GrB_assign(*centrality, NULL, NULL, -(float)num_sources, GrB_ALL, n, NULL)`:
dense fill of the result vector. -/
def assignScalar (x : ℚ) : Fin n → Option ℚ := fun _ => some x

/-- Operation `GrB_reduce(*centrality, NULL, GrB_PLUS_FP64, GrB_PLUS_FP64, bc_update,
NULL)`: row-wise PLUS-reduction of the matrix, PLUS-accumulated into the
vector; rows with no entries leave the vector entry untouched. -/
def reduceRowsAccum (v : Fin n → Option ℚ) (B : Mat n ns ℚ) : Fin n → Option ℚ := fun i =>
  if ∃ j : Fin ns, (B i j).isSome then
    some ((v i).getD 0 + ∑ j : Fin ns, (B i j).getD 0)
  else v i

/-- The centrality vector produced by `LAGraph_bc_batch` on a successful run. -/
def centralityV : Fin n → Option ℚ :=
  reduceRowsAccum n ns (assignScalar n (-(ns : ℚ))) (bcFinal n ns A srcs)

/-- The BFS state after `k` executions of the loop body (pure trajectory,
without the exit test; once the frontier is empty the body leaves `paths`
and `frontier` unchanged). -/
def trajAt (k : ℕ) : FState n ns := (stepF n ns A)^[k] (st0 n ns A srcs)

/-- The `paths` matrix after `k` executions of the loop body. -/
def pathsAt (k : ℕ) : Mat n ns ℕ := (trajAt n ns A srcs k).paths

/-! Generic forms of the three GraphBLAS operations performed by each backward
iteration, used to state claim C3 about the loop structure. -/

/-- Generic `GrB_eWiseMult` on FP64 with a valued mask and `GrB_REPLACE`:
intersection pattern restricted to the mask, values multiplied, everything
else structurally absent. -/
def eWiseMultMaskRep (S : Mat n ns Bool) (f g : Mat n ns ℚ) : Mat n ns ℚ := fun v j =>
  if maskT n ns S v j then
    match f v j, g v j with
    | some a, some b => some (a * b)
    | _, _ => none
  else none

/-- Generic `GrB_mxm` `C<S,replace> = A +.* B` on FP64 (the adjacency
structure contributing value 1 per present entry, no transpose). -/
def mxmMaskRep (S : Mat n ns Bool) (B : Mat n ns ℚ) : Mat n ns ℚ := fun v j =>
  if maskT n ns S v j ∧ (∃ w : Fin n, A v w ∧ (B w j).isSome) then
    some (∑ w : Fin n, if A v w then (B w j).getD 0 else 0)
  else none

/-- Generic `GrB_eWiseMult` on FP64 (TIMES monoid) with a PLUS accumulator
into `c` and no mask. -/
def eWiseMultAccum (c f g : Mat n ns ℚ) : Mat n ns ℚ := fun v j =>
  match (match f v j, g v j with
         | some a, some b => some (a * b)
         | _, _ => none) with
  | some t => some ((c v j).getD 0 + t)
  | none => c v j

end Core

/-- The sequence of depth indices processed by the backward loop
`for (i = depth-1; i > 0; i--)` when `depth - 1 = d`: the list
`[d, d-1, ..., 1]`. -/
def backIdxList (d : ℕ) : List ℕ := (List.range' 1 d).reverse

/-- Function `LAGraph_bc_batch` called with `sources = GrB_ALL` and `num_sources = n`:
the GrB_ALL branch builds `paths[i,i] = 1` for `i = 0..n-1` (via the `s_all`
array) and extracts all `n` columns of `A'`, which is exactly the general run
with the identity source list. -/
def bcBatchAll (n : ℕ) (A : Fin n → Fin n → Bool) : Fin n → Option ℚ :=
  centralityV n n A (fun j => j)

/-! ## Call/allocation trace model of the entry sequence of `LAGraph_bc_batch`

Claim C5 is about *when* invalid inputs are detected (relative to algebra
calls and allocations), so this model records, in source order, every
GraphBLAS call issued and every allocation performed by the code from
`GrB_Matrix_nrows` through `GrB_Matrix_build` (lines 127-171 of the source).
The engine's own validation is modelled per the GraphBLAS API: a call
receiving a null handle returns `GrB_NULL_POINTER`; `GrB_Matrix_build`
returns `GrB_INDEX_OUT_OF_BOUNDS` on a row index `≥ n`. -/

namespace BCTrace

/-- Outcome of the modelled entry sequence: the status of the first failing
call (with the counts of algebra calls issued and allocations performed up to
and including the point of detection), or the counts at which the code
proceeds into the BFS stage with every input consumed successfully.

Modelled from the spec: the `LAGRAPH_OK` macro (defined in
`LAGraph_internal.h`, which is not under `src/`) is modelled per spec section 7
("every intermediate operation's status is checked before proceeding to the
next step, and the first failure short-circuits the remaining pipeline",
releasing owned resources), i.e. as check / free-all / return-status. -/
structure Res where
  stat : LAGraphBC.GrBInfo
  nAlgebraCalls : ℕ
  nAllocations : ℕ
  reachedBFS : Bool
  deriving DecidableEq, Repr

/-- The entry sequence of `LAGraph_bc_batch`, in source order:
1. `GrB_Matrix_nrows(&n, A_matrix)` — algebra call 1;
2. `GrB_Vector_new(centrality, GrB_FP64, n)` — algebra call 2, allocation 1;
3. `GrB_Descriptor_new(&desc_tsr)` — algebra call 3, allocation 2;
4-6. three `GrB_Descriptor_set` — algebra calls 4-6;
7. `malloc(i_nsver)`, `malloc(ones)` — allocations 3 and 4;
8. `GrB_Matrix_new(&paths, ...)` — algebra call 7, allocation 5;
9. `GrB_Matrix_build(paths, ...)` — algebra call 8 (on the `GrB_ALL` branch,
   preceded by `malloc(s_all)` — allocation 6 — whose entries are
   `0 .. num_sources-1` as row indices, in bounds iff `num_sources ≤ n`).
No input validation of its own appears anywhere in this sequence. -/
def bcBatchEntry (aNull : Bool) (n : ℕ) (centralityNull : Bool)
    (sourcesAll : Bool) (sources : List ℕ) (numSources : ℕ) : Res :=
  if aNull then ⟨.nullPointer, 1, 0, false⟩
  else if centralityNull then ⟨.nullPointer, 2, 0, false⟩
  else if sourcesAll then
    if numSources ≤ n then ⟨.success, 8, 6, true⟩
    else ⟨.indexOutOfBounds, 8, 6, false⟩
  else if (sources.take numSources).any (fun s => decide (n ≤ s)) then
    ⟨.indexOutOfBounds, 8, 5, false⟩
  else ⟨.success, 8, 5, true⟩

end BCTrace

/-! ## Model of `LAGraph_Vector_print` (`src/utility/LAGraph_Vector_print.c`)

Printing is modelled by the list of tokens written to the file handle `f`
(each `FPRINTF` of the source appends one token); "writes nothing at all"
is the empty token list. -/

namespace VPrint

/-- The GrB_Type of a vector: the eleven built-in types dispatched by
`LAGraph_Vector_print_type`, or a user-defined type (the final `else`). -/
inductive GType
  | gbool | gint8 | gint16 | gint32 | gint64
  | guint8 | guint16 | guint32 | guint64
  | gfp32 | gfp64 | gudt
  deriving DecidableEq, Repr

/-- A `GrB_Vector` handle: its type, dimension, and list of present
`(index, value)` tuples in order, as returned by `GrB_Vector_extractTuples`. -/
structure GVector where
  type : GType
  size : ℕ
  tuples : List (ℕ × ℚ)

/-- One `FPRINTF` to the output file: the header line, one entry line
(index, value, and whether the long `%0.15g` format was selected), or the
`"    ...\n"` summary line. -/
inductive Token
  | header (tname : GType) (n nvals : ℕ)
  | entry (i : ℕ) (x : ℚ) (longFmt : Bool)
  | ellipsis
  deriving DecidableEq, Repr

/-- The tuple-printing loop of `LG_VECTOR_PRINT`: prints the `k`-th tuple and,
if a summary was requested and `k ≥ 29`, prints `"    ..."` and breaks. -/
def printLoop (longFmt summary : Bool) : List (ℕ × ℚ) → ℕ → List Token
  | [], _ => []
  | (i, x) :: rest, k =>
    Token.entry i x longFmt ::
      (if summary ∧ 29 ≤ k then [Token.ellipsis]
       else printLoop longFmt summary rest (k + 1))

/-- Body of the `LG_VECTOR_PRINT(suffix,...)` macro (the per-type function
`LG_Vector_print_suffix`): null checks on `v` and `f`; `pr < 0` returns
`GrB_SUCCESS` having written nothing; then the header; `pr ≤ 1` stops there;
otherwise tuples are extracted (the type always matches, so no
`GrB_DOMAIN_MISMATCH`) and printed, `%0.15g` iff `pr > 3`, summarized when
`(pr = 2 ∨ pr = 4)` and more than 30 entries. -/
def LGVectorPrint (ty : GType) (v : Option GVector) (pr : ℤ) (f : Option Unit) :
    LAGraphBC.GrBInfo × List Token :=
  match v with
  | none => (.nullPointer, [])
  | some vec =>
    match f with
    | none => (.nullPointer, [])
    | some _ =>
      if pr < 0 then (.success, [])
      else
        let nvals := vec.tuples.length
        let hdr := Token.header ty vec.size nvals
        if pr ≤ 1 then (.success, [hdr])
        else
          let longFmt : Bool := decide (¬pr ≤ 3)
          let summary : Bool := (decide (pr = 2) || decide (pr = 4)) && decide (30 < nvals)
          (.success, hdr :: printLoop longFmt summary vec.tuples 0)

/-- Function `LAGraph_Vector_print_type`: dispatch on the eleven built-in types; any
other type hits `LG_ASSERT_MSG (false, GrB_NOT_IMPLEMENTED, ...)` and returns
`GrB_NOT_IMPLEMENTED` without writing anything. -/
def LAGraphVectorPrintType (v : Option GVector) (ty : GType) (pr : ℤ) (f : Option Unit) :
    LAGraphBC.GrBInfo × List Token :=
  match ty with
  | .gudt => (.notImplemented, [])
  | t => LGVectorPrint t v pr f

/-- Function `LAGraph_Vector_print`: null checks on `v` and `f`, then the type is
queried with `GxB_Vector_type` under a SuiteSparse build (`LG_SUITESPARSE`),
or assumed `GrB_FP64` otherwise, and printing is delegated to
`LAGraph_Vector_print_type`. -/
def LAGraphVectorPrint (suitesparse : Bool) (v : Option GVector) (pr : ℤ) (f : Option Unit) :
    LAGraphBC.GrBInfo × List Token :=
  match v with
  | none => (.nullPointer, [])
  | some vec =>
    match f with
    | none => (.nullPointer, [])
    | some _ =>
      let ty := if suitesparse then vec.type else GType.gfp64
      LAGraphVectorPrintType (some vec) ty pr f

end VPrint

end LAGraphBC

/-! # Theorems -/

namespace LAGraphBC

/-! ## Walk counting and distances -/

section GraphLemmas

variable {n : ℕ} {A : Fin n → Fin n → Bool}

theorem ite_sum_zero {γ : Type} [Fintype γ] {M : Type} [AddCommMonoid M]
    (c : Prop) [Decidable c] (f : γ → M) :
    (if c then ∑ x : γ, f x else 0) = ∑ x : γ, if c then f x else 0 := by
  split
  · rfl
  · simp

theorem walkCount_zero (s t : Fin n) : walkCount n A s t 0 = if s = t then 1 else 0 := rfl

theorem walkCount_succ (s t : Fin n) (ℓ : ℕ) :
    walkCount n A s t (ℓ + 1) = ∑ u : Fin n, if A s u then walkCount n A u t ℓ else 0 := rfl

theorem walkCount_self (s : Fin n) : walkCount n A s s 0 = 1 := by
  simp [walkCount_zero]

theorem walkCount_zero_ne {s t : Fin n} (h : s ≠ t) : walkCount n A s t 0 = 0 := by
  simp [walkCount_zero, h]

theorem walkCount_succ_last (s t : Fin n) (ℓ : ℕ) :
    walkCount n A s t (ℓ + 1) = ∑ u : Fin n, if A u t then walkCount n A s u ℓ else 0 := by
  induction ℓ generalizing s with
  | zero =>
    rw [walkCount_succ]
    have h1 : ∀ u : Fin n, (if A s u then walkCount n A u t 0 else 0)
        = if u = t then (if A s t then 1 else 0) else 0 := by
      intro u
      by_cases h : u = t
      · subst h; by_cases h2 : A s u <;> simp [walkCount_zero, h2]
      · by_cases h2 : A s u <;> simp [walkCount_zero, h, h2]
    have h2 : ∀ u : Fin n, (if A u t then walkCount n A s u 0 else 0)
        = if u = s then (if A s t then 1 else 0) else 0 := by
      intro u
      by_cases h : u = s
      · subst h; by_cases h2 : A u t <;> simp [walkCount_zero, h2]
      · by_cases h2 : A u t <;> simp [walkCount_zero, h, h2, Ne.symm h]
    rw [Finset.sum_congr rfl (fun u _ => h1 u), Finset.sum_congr rfl (fun u _ => h2 u)]
    rw [Finset.sum_ite_eq' Finset.univ t, Finset.sum_ite_eq' Finset.univ s]
    simp
  | succ ℓ ih =>
    rw [walkCount_succ]
    have h1 : ∀ u : Fin n, (if A s u then walkCount n A u t (ℓ + 1) else 0)
        = ∑ w : Fin n, if A w t then (if A s u then walkCount n A u w ℓ else 0) else 0 := by
      intro u
      rw [ih u, ite_sum_zero]
      refine Finset.sum_congr rfl (fun w _ => ?_)
      by_cases h : A s u <;> by_cases h2 : A w t <;> simp [h, h2]
    rw [Finset.sum_congr rfl (fun u _ => h1 u), Finset.sum_comm]
    refine Finset.sum_congr rfl (fun w _ => ?_)
    rw [← ite_sum_zero, ← walkCount_succ]

/-- A nonzero walk-count sum has a nonzero term. -/
theorem exists_of_walkCount_succ {s t : Fin n} {ℓ : ℕ} (h : walkCount n A s t (ℓ + 1) ≠ 0) :
    ∃ u : Fin n, A s u ∧ walkCount n A u t ℓ ≠ 0 := by
  rw [walkCount_succ] at h
  rcases Finset.exists_ne_zero_of_sum_ne_zero h with ⟨u, -, hu⟩
  by_cases hA : A s u
  · exact ⟨u, hA, by simpa [hA] using hu⟩
  · simp [hA] at hu

theorem exists_of_walkCount_succ_last {s t : Fin n} {ℓ : ℕ}
    (h : walkCount n A s t (ℓ + 1) ≠ 0) :
    ∃ u : Fin n, A u t ∧ walkCount n A s u ℓ ≠ 0 := by
  rw [walkCount_succ_last] at h
  rcases Finset.exists_ne_zero_of_sum_ne_zero h with ⟨u, -, hu⟩
  by_cases hA : A u t
  · exact ⟨u, hA, by simpa [hA] using hu⟩
  · simp [hA] at hu

theorem walkCount_succ_ne_zero {s u t : Fin n} {ℓ : ℕ} (hA : A s u)
    (h : walkCount n A u t ℓ ≠ 0) : walkCount n A s t (ℓ + 1) ≠ 0 := by
  rw [walkCount_succ]
  intro hz
  rw [Finset.sum_eq_zero_iff] at hz
  have := hz u (Finset.mem_univ u)
  simp [hA] at this
  exact h this

theorem walkCount_succ_last_ne_zero {s u t : Fin n} {ℓ : ℕ} (hA : A u t)
    (h : walkCount n A s u ℓ ≠ 0) : walkCount n A s t (ℓ + 1) ≠ 0 := by
  rw [walkCount_succ_last]
  intro hz
  rw [Finset.sum_eq_zero_iff] at hz
  have := hz u (Finset.mem_univ u)
  simp [hA] at this
  exact h this

/-- Walk concatenation: nonzero walk counts compose along lengths. -/
theorem walkCount_trans {s u t : Fin n} {a b : ℕ} (h1 : walkCount n A s u a ≠ 0)
    (h2 : walkCount n A u t b ≠ 0) : walkCount n A s t (a + b) ≠ 0 := by
  induction a generalizing s with
  | zero =>
    have : s = u := by
      by_contra hne
      exact h1 (walkCount_zero_ne hne)
    subst this
    simpa using h2
  | succ a ih =>
    rcases exists_of_walkCount_succ h1 with ⟨w, hA, hw⟩
    have : walkCount n A w t (a + b) ≠ 0 := ih hw
    have : walkCount n A s t ((a + b) + 1) ≠ 0 := walkCount_succ_ne_zero hA this
    have harith : a + 1 + b = (a + b) + 1 := by omega
    rw [harith]
    exact this

end GraphLemmas

/-! ## Bounded minimization (`firstHit`) -/

section FirstHit

theorem firstHit_none {p : ℕ → Bool} {b : ℕ} (h : firstHit p b = none) :
    ∀ m < b, p m = false := by
  induction b with
  | zero => omega
  | succ b ih =>
    rw [firstHit] at h
    cases hb : firstHit p b with
    | some m' => rw [hb] at h; simp at h
    | none =>
      rw [hb] at h
      by_cases hp : p b
      · simp [hp] at h
      · intro m hm
        rcases Nat.lt_succ_iff_lt_or_eq.mp hm with h' | h'
        · exact ih hb m h'
        · subst h'; simpa using hp

theorem firstHit_some {p : ℕ → Bool} {b m : ℕ} (h : firstHit p b = some m) :
    p m = true ∧ m < b ∧ ∀ k < m, p k = false := by
  induction b with
  | zero => simp [firstHit] at h
  | succ b ih =>
    rw [firstHit] at h
    cases hb : firstHit p b with
    | some m' =>
      rw [hb] at h
      cases h
      rcases ih hb with ⟨h1, h2, h3⟩
      exact ⟨h1, Nat.lt_succ_of_lt h2, h3⟩
    | none =>
      rw [hb] at h
      by_cases hp : p b
      · simp [hp] at h
        subst h
        exact ⟨hp, Nat.lt_succ_self b, fun k hk => firstHit_none hb k hk⟩
      · simp [hp] at h

theorem firstHit_of_hit (p : ℕ → Bool) {b m : ℕ} (hm : m < b) (hp : p m = true) :
    ∃ m' ≤ m, firstHit p b = some m' := by
  cases hb : firstHit p b with
  | none =>
    have := firstHit_none hb m hm
    rw [hp] at this
    cases this
  | some m' =>
    refine ⟨m', ?_, rfl⟩
    rcases firstHit_some hb with ⟨-, -, h3⟩
    by_contra hlt
    have := h3 m (by omega)
    rw [hp] at this
    cases this

end FirstHit

/-! ## Shortening walks below `n`, and the distance API -/

section DistLemmas

variable {n : ℕ} {A : Fin n → Fin n → Bool}

theorem mem_reachSet {t s : Fin n} {ℓ : ℕ} :
    s ∈ reachSet n A t ℓ ↔ ∃ m ≤ ℓ, walkCount n A s t m ≠ 0 := by
  simp [reachSet, List.any_eq_true, List.mem_range, Nat.lt_succ_iff]

theorem reachSet_mono {t : Fin n} {ℓ ℓ' : ℕ} (h : ℓ ≤ ℓ') :
    reachSet n A t ℓ ⊆ reachSet n A t ℓ' := by
  intro s hs
  rcases mem_reachSet.mp hs with ⟨m, hm, hw⟩
  exact mem_reachSet.mpr ⟨m, le_trans hm h, hw⟩

theorem mem_reachSet_succ {t s : Fin n} {ℓ : ℕ} :
    s ∈ reachSet n A t (ℓ + 1) ↔
      s ∈ reachSet n A t ℓ ∨ ∃ u : Fin n, A s u ∧ u ∈ reachSet n A t ℓ := by
  constructor
  · intro hs
    rcases mem_reachSet.mp hs with ⟨m, hm, hw⟩
    by_cases hcase : m = ℓ + 1
    case neg =>
      exact Or.inl (mem_reachSet.mpr ⟨m, by omega, hw⟩)
    case pos =>
      subst hcase
      rcases exists_of_walkCount_succ hw with ⟨u, hA, hu⟩
      exact Or.inr ⟨u, hA, mem_reachSet.mpr ⟨ℓ, le_refl ℓ, hu⟩⟩
  · intro hs
    rcases hs with hs | ⟨u, hA, hu⟩
    · exact reachSet_mono (Nat.le_succ ℓ) hs
    · rcases mem_reachSet.mp hu with ⟨m, hm, hw⟩
      exact mem_reachSet.mpr ⟨m + 1, by omega, walkCount_succ_ne_zero hA hw⟩

theorem reachSet_stab {t : Fin n} {k : ℕ}
    (h : reachSet n A t (k + 1) = reachSet n A t k) :
    ∀ j, reachSet n A t (k + j) = reachSet n A t k := by
  intro j
  induction j with
  | zero => rfl
  | succ j ih =>
    ext s
    have harith : k + (j + 1) = (k + j) + 1 := rfl
    rw [harith]
    rw [mem_reachSet_succ, ih]
    conv_rhs => rw [← h]
    rw [mem_reachSet_succ]

theorem reachSet_card_grow {t : Fin n} {m : ℕ}
    (h : ∀ k < m, reachSet n A t (k + 1) ≠ reachSet n A t k) :
    ∀ k ≤ m, k + 1 ≤ (reachSet n A t k).card := by
  intro k
  induction k with
  | zero =>
    intro _
    have ht : t ∈ reachSet n A t 0 := by
      refine mem_reachSet.mpr ⟨0, le_refl 0, ?_⟩
      rw [walkCount_self]
      exact one_ne_zero
    exact Finset.card_pos.mpr ⟨t, ht⟩
  | succ k ih =>
    intro hk
    have h1 : k + 1 ≤ (reachSet n A t k).card := ih (by omega)
    have hss : reachSet n A t k ⊂ reachSet n A t (k + 1) :=
      lt_of_le_of_ne (reachSet_mono (Nat.le_succ k)) (Ne.symm (h k (by omega)))
    have := Finset.card_lt_card hss
    omega

theorem exists_reachSet_stab (t : Fin n) :
    ∃ k < n, reachSet n A t (k + 1) = reachSet n A t k := by
  by_contra hcon
  push_neg at hcon
  have := reachSet_card_grow hcon n (le_refl n)
  have hle : (reachSet n A t n).card ≤ n := by
    have := Finset.card_le_univ (reachSet n A t n)
    simpa using this
  omega

/-- Any walk can be shortened to one of length `< n`. -/
theorem walkCount_shorten {s t : Fin n} {ℓ : ℕ} (h : walkCount n A s t ℓ ≠ 0) :
    ∃ m < n, walkCount n A s t m ≠ 0 := by
  obtain ⟨k, hkn, hstab⟩ := @exists_reachSet_stab n A t
  have hs : s ∈ reachSet n A t ℓ := mem_reachSet.mpr ⟨ℓ, le_refl ℓ, h⟩
  have hsub : reachSet n A t ℓ ⊆ reachSet n A t (k + ℓ) := reachSet_mono (by omega)
  have h2 : reachSet n A t (k + ℓ) = reachSet n A t k := reachSet_stab hstab ℓ
  have hk : s ∈ reachSet n A t k := h2 ▸ hsub hs
  obtain ⟨m, hm, hw⟩ := mem_reachSet.mp hk
  exact ⟨m, by omega, hw⟩

theorem dist_exists_of_walk {s t : Fin n} {ℓ : ℕ} (h : walkCount n A s t ℓ ≠ 0) :
    ∃ d, dist n A s t = some d ∧ d ≤ ℓ := by
  obtain ⟨m, hmn, hw⟩ := walkCount_shorten h
  obtain ⟨m', hm', hfh⟩ :=
    firstHit_of_hit (fun ℓ => walkCount n A s t ℓ != 0) hmn (by simpa using hw)
  refine ⟨m', hfh, ?_⟩
  rcases Nat.lt_or_ge ℓ n with hln | hln
  · obtain ⟨m2, hm2, hfh2⟩ :=
      firstHit_of_hit (fun m => walkCount n A s t m != 0) hln (by simpa using h)
    rw [hfh] at hfh2
    cases hfh2
    omega
  · have := (firstHit_some hfh).2.1
    omega

theorem dist_spec {s t : Fin n} {d : ℕ} (h : dist n A s t = some d) :
    walkCount n A s t d ≠ 0 ∧ d < n ∧ ∀ m < d, walkCount n A s t m = 0 := by
  rcases firstHit_some h with ⟨h1, h2, h3⟩
  refine ⟨by simpa using h1, h2, fun m hm => ?_⟩
  have := h3 m hm
  simpa using this

theorem dist_none_walk {s t : Fin n} (h : dist n A s t = none) (ℓ : ℕ) :
    walkCount n A s t ℓ = 0 := by
  by_contra hw
  obtain ⟨d, hd, -⟩ := dist_exists_of_walk hw
  rw [h] at hd
  cases hd

theorem dist_min {s t : Fin n} {d m : ℕ} (h : dist n A s t = some d)
    (hw : walkCount n A s t m ≠ 0) : d ≤ m := by
  obtain ⟨d', hd', hle⟩ := dist_exists_of_walk hw
  rw [h] at hd'
  cases hd'
  exact hle

theorem dist_self (s : Fin n) : dist n A s s = some 0 := by
  have h1 : walkCount n A s s 0 ≠ 0 := by rw [walkCount_self]; exact one_ne_zero
  obtain ⟨d, hd, hle⟩ := dist_exists_of_walk h1
  have : d = 0 := by omega
  subst this
  exact hd

theorem dist_zero {s t : Fin n} (h : dist n A s t = some 0) : s = t := by
  have h1 := (dist_spec h).1
  by_contra hne
  exact h1 (walkCount_zero_ne hne)

theorem sigma_eq_walkCount {s t : Fin n} {d : ℕ} (h : dist n A s t = some d) :
    sigma n A s t = walkCount n A s t d := by
  simp [sigma, h]

theorem sigma_ne_zero {s t : Fin n} {d : ℕ} (h : dist n A s t = some d) :
    sigma n A s t ≠ 0 := by
  rw [sigma_eq_walkCount h]
  exact (dist_spec h).1

theorem sigma_self (s : Fin n) : sigma n A s s = 1 := by
  rw [sigma_eq_walkCount (dist_self s), walkCount_self]

theorem sigma_none {s t : Fin n} (h : dist n A s t = none) : sigma n A s t = 0 := by
  simp [sigma, h]

theorem dist_triangle {s u t : Fin n} {a b : ℕ} (h1 : dist n A s u = some a)
    (h2 : dist n A u t = some b) : ∃ c ≤ a + b, dist n A s t = some c := by
  obtain ⟨c, hc, hle⟩ :=
    dist_exists_of_walk (walkCount_trans (dist_spec h1).1 (dist_spec h2).1)
  exact ⟨c, hle, hc⟩

theorem dist_edge_succ {s v w : Fin n} {a : ℕ} (h1 : dist n A s v = some a)
    (hA : A v w) : ∃ e ≤ a + 1, dist n A s w = some e := by
  obtain ⟨e, he, hle⟩ :=
    dist_exists_of_walk (walkCount_succ_last_ne_zero hA (dist_spec h1).1)
  exact ⟨e, hle, he⟩

theorem dist_edge_head {v w t : Fin n} {c : ℕ} (hA : A v w)
    (h2 : dist n A w t = some c) : ∃ b ≤ c + 1, dist n A v t = some b := by
  obtain ⟨b, hb, hle⟩ :=
    dist_exists_of_walk (walkCount_succ_ne_zero hA (dist_spec h2).1)
  exact ⟨b, hle, hb⟩

/-- First-step decomposition: shortest `s → t` walks split as an edge out of
`s` to a vertex exactly one step closer to `t`, counted with multiplicity. -/
theorem sigma_first_step {s t : Fin n} {e : ℕ} (h : dist n A s t = some (e + 1)) :
    sigma n A s t = ∑ u : Fin n, if A s u ∧ dist n A u t = some e then sigma n A u t else 0 := by
  rcases dist_spec h with ⟨hw, hlt, hmin⟩
  rw [sigma_eq_walkCount h, walkCount_succ]
  refine Finset.sum_congr rfl (fun u _ => ?_)
  by_cases hA : A s u
  · rw [if_pos hA]
    by_cases hd : dist n A u t = some e
    · rw [if_pos ⟨hA, hd⟩, sigma_eq_walkCount hd]
    · rw [if_neg (fun hc => hd hc.2)]
      by_contra hwu
      obtain ⟨d', hd', hde⟩ := dist_exists_of_walk hwu
      have hne : d' ≠ e := fun hc => hd (hc ▸ hd')
      have hlt' : d' < e := by omega
      have hnz : walkCount n A s t (d' + 1) ≠ 0 :=
        walkCount_succ_ne_zero hA (dist_spec hd').1
      exact hnz (hmin (d' + 1) (by omega))
  · simp [hA]

/-- Last-step decomposition: shortest `s → t` walks split as a shortest walk
to a vertex one step before `t` followed by an edge into `t`. -/
theorem sigma_last_step {s t : Fin n} {e : ℕ} (h : dist n A s t = some (e + 1)) :
    sigma n A s t = ∑ u : Fin n, if A u t ∧ dist n A s u = some e then sigma n A s u else 0 := by
  rcases dist_spec h with ⟨hw, hlt, hmin⟩
  rw [sigma_eq_walkCount h, walkCount_succ_last]
  refine Finset.sum_congr rfl (fun u _ => ?_)
  by_cases hA : A u t
  · rw [if_pos hA]
    by_cases hd : dist n A s u = some e
    · rw [if_pos ⟨hA, hd⟩, sigma_eq_walkCount hd]
    · rw [if_neg (fun hc => hd hc.2)]
      by_contra hwu
      obtain ⟨d', hd', hde⟩ := dist_exists_of_walk hwu
      have hne : d' ≠ e := fun hc => hd (hc ▸ hd')
      have hlt' : d' < e := by omega
      have hnz : walkCount n A s t (d' + 1) ≠ 0 :=
        walkCount_succ_last_ne_zero hA (dist_spec hd').1
      exact hnz (hmin (d' + 1) (by omega))
  · simp [hA]

end DistLemmas

/-! ## Visit counting and the splitting lemma -/

section VisitLemmas

variable {n : ℕ} {A : Fin n → Fin n → Bool}

theorem distAdd_some {a b : ℕ} : distAdd (some a) (some b) = some (a + b) := rfl

theorem distAdd_none_right (o : Option ℕ) : distAdd o none = none := by
  cases o <;> rfl

theorem distAdd_eq_some {o₁ o₂ : Option ℕ} {d : ℕ} :
    distAdd o₁ o₂ = some d ↔ ∃ a b, o₁ = some a ∧ o₂ = some b ∧ a + b = d := by
  cases o₁ with
  | none => simp [distAdd]
  | some a =>
    cases o₂ with
    | none => simp [distAdd]
    | some b => simp [distAdd]

theorem visitCount_zero' (s t v : Fin n) :
    visitCount n A s t v 0 = if s = t ∧ v = s then 1 else 0 := rfl

theorem visitCount_succ' (s t v : Fin n) (ℓ : ℕ) :
    visitCount n A s t v (ℓ + 1) =
      if v = s then walkCount n A s t (ℓ + 1)
      else ∑ u : Fin n, if A s u then visitCount n A u t v ℓ else 0 := rfl

/-- Every walk visits its first vertex. -/
theorem visitCount_self (s t : Fin n) (ℓ : ℕ) :
    visitCount n A s t s ℓ = walkCount n A s t ℓ := by
  cases ℓ with
  | zero =>
    rw [visitCount_zero', walkCount_zero]
    by_cases h : s = t <;> simp [h]
  | succ ℓ => rw [visitCount_succ', if_pos rfl]

/-- Every walk visits its last vertex. -/
theorem visitCount_target (s t : Fin n) (ℓ : ℕ) :
    visitCount n A s t t ℓ = walkCount n A s t ℓ := by
  induction ℓ generalizing s with
  | zero =>
    rw [visitCount_zero', walkCount_zero]
    by_cases h : s = t
    · subst h; simp
    · simp [h]
  | succ ℓ ih =>
    rw [visitCount_succ']
    by_cases h : t = s
    · rw [if_pos h]
    · rw [if_neg h, walkCount_succ]
      exact Finset.sum_congr rfl (fun u _ => by
        by_cases hA : A s u <;> simp [hA, ih u])

theorem visitCount_le (s t v : Fin n) (ℓ : ℕ) :
    visitCount n A s t v ℓ ≤ walkCount n A s t ℓ := by
  induction ℓ generalizing s with
  | zero =>
    rw [visitCount_zero', walkCount_zero]
    by_cases h : s = t
    · subst h
      by_cases h2 : v = s <;> simp [h2]
    · simp [h]
  | succ ℓ ih =>
    rw [visitCount_succ']
    by_cases h : v = s
    · rw [if_pos h]
    · rw [if_neg h, walkCount_succ]
      refine Finset.sum_le_sum (fun u _ => ?_)
      by_cases hA : A s u <;> simp [hA, ih u]

/-- Splitting lemma: Among the shortest `s → t` walks (length `d =
dist s t`), those visiting `v ≠ s` number `sigma(s,v) * sigma(v,t)` when
`dist(s,v) + dist(v,t) = d`, and `0` otherwise. -/
theorem visitCount_split {t v : Fin n} :
    ∀ {d : ℕ} {s : Fin n}, v ≠ s → dist n A s t = some d →
      visitCount n A s t v d =
        if distAdd (dist n A s v) (dist n A v t) = some d
        then sigma n A s v * sigma n A v t else 0 := by
  intro d
  induction d with
  | zero =>
    intro s hv h
    have hst : s = t := dist_zero h
    subst hst
    rw [visitCount_zero', if_neg (fun hc => hv hc.2)]
    rw [if_neg]
    intro hc
    rcases distAdd_eq_some.mp hc with ⟨a, b, ha, hb, hab⟩
    have ha0 : a = 0 := by omega
    subst ha0
    exact hv (dist_zero ha).symm
  | succ e ih =>
    intro s hv h
    rcases dist_spec h with ⟨hw, hltn, hmin⟩
    by_cases hvt : v = t
    · -- the target is visited by every walk
      subst hvt
      rw [visitCount_target]
      have hcond : distAdd (dist n A s v) (dist n A v v) = some (e + 1) := by
        rw [dist_self, h]
        rfl
      rw [if_pos hcond, sigma_self, mul_one, sigma_eq_walkCount h]
    · -- main case: v is neither s nor t
      rw [visitCount_succ', if_neg (fun hc => hv hc)]
      cases hvt2 : dist n A v t with
      | none =>
        -- v does not reach t: no shortest s-t walk visits v, and the condition fails
        rw [distAdd_none_right, if_neg (by simp)]
        refine Finset.sum_eq_zero (fun u _ => ?_)
        by_cases hA : A s u
        · rw [if_pos hA]
          by_cases hu : u = v
          · subst hu
            rw [visitCount_self, dist_none_walk hvt2]
          · by_cases hwu : walkCount n A u t e = 0
            · have := @visitCount_le n A u t v e
              omega
            · obtain ⟨d', hd', hde⟩ := dist_exists_of_walk hwu
              have hdee : d' = e := by
                by_contra hne
                have : walkCount n A s t (d' + 1) ≠ 0 :=
                  walkCount_succ_ne_zero hA (dist_spec hd').1
                exact this (hmin (d' + 1) (by omega))
              rw [hdee] at hd'
              rw [ih (fun hc => hu hc.symm) hd', hvt2, distAdd_none_right]
              rw [if_neg (by simp)]
        · rw [if_neg hA]
      | some b =>
        -- v reaches t in b steps (b ≥ 1 since v ≠ t)
        have hb1 : b ≠ 0 := fun hb0 => hvt (dist_zero (hb0 ▸ hvt2))
        -- rewrite each term of the sum
        have hterm : ∀ u : Fin n, (if A s u then visitCount n A u t v e else 0)
            = if u = v then (if A s v ∧ b = e then sigma n A v t else 0)
              else if A s u ∧ dist n A u t = some e ∧ distAdd (dist n A u v) (some b) = some e
                then sigma n A u v * sigma n A v t else 0 := by
          intro u
          by_cases hu : u = v
          · subst hu
            rw [if_pos rfl]
            by_cases hA : A s u
            · rw [if_pos hA, visitCount_self]
              by_cases hwv : walkCount n A u t e = 0
              · rw [hwv]
                by_cases hbe : b = e
                · rw [if_pos ⟨hA, hbe⟩, sigma_eq_walkCount hvt2, hbe, hwv]
                · rw [if_neg (fun hc => hbe hc.2)]
              · obtain ⟨d', hd', hde⟩ := dist_exists_of_walk hwv
                have hdb : d' = b := by
                  rw [hvt2] at hd'
                  exact (Option.some.inj hd').symm
                have hbe : b = e := by
                  subst hdb
                  by_contra hne
                  have hlt' : d' < e := by omega
                  have : walkCount n A s t (d' + 1) ≠ 0 :=
                    walkCount_succ_ne_zero hA (dist_spec hd').1
                  exact this (hmin (d' + 1) (by omega))
                rw [if_pos ⟨hA, hbe⟩, sigma_eq_walkCount hvt2, hbe]
            · rw [if_neg hA, if_neg (fun hc => hA hc.1)]
          · rw [if_neg hu]
            by_cases hA : A s u
            · rw [if_pos hA]
              by_cases hwu : walkCount n A u t e = 0
              · have hle := @visitCount_le n A u t v e
                have hvz : visitCount n A u t v e = 0 := by omega
                rw [hvz]
                by_cases hc : A s u ∧ dist n A u t = some e ∧
                    distAdd (dist n A u v) (some b) = some e
                · exact absurd (dist_spec hc.2.1).1 (fun hq => hq hwu)
                · rw [if_neg hc]
              · obtain ⟨d', hd', hde⟩ := dist_exists_of_walk hwu
                have hdee : d' = e := by
                  by_contra hne
                  have : walkCount n A s t (d' + 1) ≠ 0 :=
                    walkCount_succ_ne_zero hA (dist_spec hd').1
                  exact this (hmin (d' + 1) (by omega))
                rw [hdee] at hd'
                rw [ih (fun hc => hu hc.symm) hd', hvt2]
                by_cases hc : distAdd (dist n A u v) (some b) = some e
                · rw [if_pos hc, if_pos ⟨hA, hd', hc⟩]
                · rw [if_neg hc, if_neg (fun hq => hc hq.2.2)]
            · rw [if_neg hA, if_neg (fun hc => hA hc.1)]
        rw [Finset.sum_congr rfl (fun u _ => hterm u)]
        -- now settle the two cases of the right-hand condition
        by_cases hcond : distAdd (dist n A s v) (some b) = some (e + 1)
        · -- v lies on a shortest s-t walk
          rw [if_pos hcond]
          cases hsv : dist n A s v with
          | none => rw [hsv] at hcond; simp [distAdd] at hcond
          | some a =>
            rw [hsv, distAdd_some] at hcond
            have hab : a + b = e + 1 := Option.some.inj hcond
            have ha0 : a ≠ 0 := by
              intro h0
              subst h0
              exact hv (dist_zero hsv).symm
            obtain ⟨a', rfl⟩ : ∃ a', a = a' + 1 := ⟨a - 1, by omega⟩
            rw [sigma_first_step hsv, Finset.sum_mul]
            refine Finset.sum_congr rfl (fun u _ => ?_)
            by_cases hu : u = v
            · subst hu
              by_cases hA : A s u
              · by_cases hbe : b = e
                · have ha' : a' = 0 := by omega
                  have hdd : dist n A u u = some a' := by rw [dist_self, ha']
                  rw [if_pos rfl, if_pos ⟨hA, hbe⟩, if_pos ⟨hA, hdd⟩, sigma_self, one_mul]
                · have hne : ¬(A s u = true ∧ dist n A u u = some a') := by
                    intro hc
                    have h0 := hc.2
                    rw [dist_self] at h0
                    have := Option.some.inj h0
                    omega
                  rw [if_pos rfl, if_neg (fun hc => hbe hc.2), if_neg hne, zero_mul]
              · rw [if_pos rfl, if_neg (fun hc => hA hc.1), if_neg (fun hc => hA hc.1), zero_mul]
            · by_cases hA : A s u
              · by_cases hc : dist n A u v = some a'
                · have hut : dist n A u t = some e := by
                    obtain ⟨c', hcle, hc'⟩ := dist_triangle hc hvt2
                    have hce : c' = e := by
                      by_contra hne
                      have hlt' : c' < e := by omega
                      have hnz : walkCount n A s t (c' + 1) ≠ 0 :=
                        walkCount_succ_ne_zero hA (dist_spec hc').1
                      exact hnz (hmin (c' + 1) (by omega))
                    exact hce ▸ hc'
                  have hda : distAdd (dist n A u v) (some b) = some e := by
                    rw [hc, distAdd_some]
                    congr 1
                    omega
                  rw [if_neg hu, if_pos ⟨hA, hut, hda⟩, if_pos ⟨hA, hc⟩]
                · have hne : ¬(A s u = true ∧ dist n A u t = some e ∧
                      distAdd (dist n A u v) (some b) = some e) := by
                    intro hq
                    rcases distAdd_eq_some.mp hq.2.2 with ⟨c, b3, hcc, hb3, hcb⟩
                    have hbb : b3 = b := (Option.some.inj hb3).symm
                    subst hbb
                    have hca : c = a' := by omega
                    exact hc (hca ▸ hcc)
                  rw [if_neg hu, if_neg hne, if_neg (fun hq => hc hq.2), zero_mul]
              · rw [if_neg hu, if_neg (fun hc => hA hc.1), if_neg (fun hc => hA hc.1), zero_mul]
        · -- v lies on no shortest s-t walk: all terms vanish
          rw [if_neg hcond]
          refine Finset.sum_eq_zero (fun u _ => ?_)
          by_cases hu : u = v
          · subst hu
            rw [if_pos rfl]
            by_cases hAbe : A s u ∧ b = e
            · exfalso
              rcases hAbe with ⟨hA, hbe⟩
              have hw1 : walkCount n A s u (0 + 1) ≠ 0 := by
                rw [walkCount_succ]
                intro hz
                rw [Finset.sum_eq_zero_iff] at hz
                have := hz u (Finset.mem_univ u)
                rw [if_pos hA, walkCount_self] at this
                exact one_ne_zero this
              obtain ⟨a, ha, hale⟩ := dist_exists_of_walk hw1
              have ha0 : a ≠ 0 := fun h0 => hv (dist_zero (h0 ▸ ha)).symm
              have ha1 : a = 1 := by omega
              subst ha1
              exact hcond (by rw [ha, distAdd_some]; congr 1; omega)
            · rw [if_neg hAbe]
          · rw [if_neg hu]
            by_cases hq : A s u ∧ dist n A u t = some e ∧
                distAdd (dist n A u v) (some b) = some e
            · exfalso
              rcases hq with ⟨hA, hut, hda⟩
              rcases distAdd_eq_some.mp hda with ⟨c, b2, hc, hb2, hcb⟩
              have hbb : b = b2 := Option.some.inj hb2
              subst hbb
              -- dist s v = c + 1 exactly
              have hsv_le : ∃ a ≤ c + 1, dist n A s v = some a := by
                obtain ⟨a, ha, hale⟩ :=
                  dist_exists_of_walk (walkCount_succ_ne_zero hA (dist_spec hc).1)
                exact ⟨a, hale, ha⟩
              rcases hsv_le with ⟨a, hale, ha⟩
              have hage : e + 1 ≤ a + b := by
                obtain ⟨c'', hcle2, hc''⟩ := dist_triangle ha hvt2
                rw [h] at hc''
                have := Option.some.inj hc''
                omega
              have haeq : a = c + 1 := by omega
              subst haeq
              exact hcond (by rw [ha, distAdd_some]; congr 1; omega)
            · rw [if_neg hq]

end VisitLemmas

/-! ## The Brandes dependency recurrence -/

section DeltaLemmas

variable {n : ℕ} {A : Fin n → Fin n → Bool}

theorem sigma_cast_ne_zero {s t : Fin n} {d : ℕ} (h : dist n A s t = some d) :
    (sigma n A s t : ℚ) ≠ 0 :=
  Nat.cast_ne_zero.mpr (sigma_ne_zero h)

theorem sigmaVia_self_src (s t : Fin n) : sigmaVia n A s t s = 0 := by
  simp [sigmaVia]

theorem sigmaVia_self_tgt (s t : Fin n) : sigmaVia n A s t t = 0 := by
  simp [sigmaVia]

theorem delta_self (s : Fin n) : delta n A s s = 0 := by
  unfold delta
  refine Finset.sum_eq_zero (fun t _ => ?_)
  rw [sigmaVia_self_src]
  simp

/-- Count `sigmaVia` in terms of the splitting lemma, for `v ≠ s`. -/
theorem sigmaVia_eq {s t v : Fin n} {d : ℕ} (hvs : v ≠ s) (hvt : v ≠ t)
    (hd : dist n A s t = some d) :
    sigmaVia n A s t v =
      if distAdd (dist n A s v) (dist n A v t) = some d
      then sigma n A s v * sigma n A v t else 0 := by
  unfold sigmaVia
  rw [if_neg (by tauto), hd]
  exact visitCount_split hvs hd

theorem delta_unreachable {s v : Fin n} (h : dist n A s v = none) : delta n A s v = 0 := by
  unfold delta
  refine Finset.sum_eq_zero (fun t _ => ?_)
  have hvs : v ≠ s := by
    intro hc
    subst hc
    rw [dist_self] at h
    cases h
  by_cases hvt : v = t
  · subst hvt
    rw [sigmaVia_self_tgt]
    simp
  · cases hst : dist n A s t with
    | none => unfold sigmaVia; rw [if_neg (by tauto), hst]; simp
    | some d =>
      rw [sigmaVia_eq hvs hvt hst, h]
      simp [distAdd]

/-- Brandes recurrence: For `v` at distance `i ≥ 1` from the source `s`,
the dependency `delta s v = Σ_t sigma(s,t|v)/sigma(s,t)` satisfies
`delta s v = Σ_{w : v→w, dist s w = i+1} (sigma s v / sigma s w) (1 + delta s w)`. -/
theorem delta_recurrence {s v : Fin n} {i : ℕ} (hi : i ≠ 0) (hv : dist n A s v = some i) :
    delta n A s v = ∑ w : Fin n,
      if A v w ∧ dist n A s w = some (i + 1)
      then (sigma n A s v : ℚ) / (sigma n A s w) * (1 + delta n A s w) else 0 := by
  have hvs : v ≠ s := by
    intro hc
    subst hc
    rw [dist_self] at hv
    cases hv
    exact hi rfl
  -- Step A: rewrite each term of delta as a sum over successors w.
  have hF : ∀ t : Fin n, (sigmaVia n A s t v : ℚ) / (sigma n A s t : ℚ)
      = ∑ w : Fin n,
        if A v w ∧ dist n A s w = some (i + 1) ∧
            distAdd (some (i + 1)) (dist n A w t) = dist n A s t ∧ dist n A s t ≠ none
        then (sigma n A s v : ℚ) * (sigma n A w t) / (sigma n A s t) else 0 := by
    intro t
    by_cases hvt : v = t
    · subst hvt
      rw [sigmaVia_self_tgt]
      rw [Nat.cast_zero, zero_div]
      symm
      refine Finset.sum_eq_zero (fun w _ => ?_)
      rw [if_neg]
      intro hc
      rcases hc with ⟨-, -, hadd, hne⟩
      rw [hv] at hadd
      rcases distAdd_eq_some.mp hadd with ⟨x, c, hx, -, hxc⟩
      cases hx
      omega
    · cases hst : dist n A s t with
      | none =>
        unfold sigmaVia
        rw [if_neg (by tauto), hst]
        rw [Nat.cast_zero, zero_div]
        symm
        refine Finset.sum_eq_zero (fun w _ => ?_)
        rw [if_neg]
        intro hc
        exact hc.2.2.2 rfl
      | some d =>
        rw [sigmaVia_eq hvs hvt hst, hv]
        cases hvt2 : dist n A v t with
        | none =>
          rw [distAdd_none_right, if_neg (by simp), Nat.cast_zero, zero_div]
          symm
          refine Finset.sum_eq_zero (fun w _ => ?_)
          rw [if_neg]
          intro hc
          rcases hc with ⟨hA, hw, hadd, -⟩
          rcases distAdd_eq_some.mp hadd with ⟨x, c, hx, hcdist, hxc⟩
          obtain ⟨b, hble, hb⟩ := dist_edge_head hA hcdist
          rw [hvt2] at hb
          cases hb
        | some b =>
          rw [distAdd_some]
          by_cases hib : i + b = d
          · -- v on a shortest s-t walk: expand sigma(v,t) one step forward
            rw [if_pos (by rw [hib])]
            have hb0 : b ≠ 0 := by
              intro h0
              subst h0
              exact hvt (dist_zero hvt2)
            obtain ⟨b', rfl⟩ : ∃ b', b = b' + 1 := ⟨b - 1, by omega⟩
            rw [sigma_first_step hvt2]
            rw [Nat.cast_mul, Nat.cast_sum, Finset.mul_sum, Finset.sum_div]
            refine Finset.sum_congr rfl (fun w _ => ?_)
            by_cases hA : A v w
            · by_cases hwt : dist n A w t = some b'
              · have hsw : dist n A s w = some (i + 1) := by
                  obtain ⟨e, hele, he⟩ := dist_edge_succ hv hA
                  obtain ⟨c', hcle, hc'⟩ := dist_triangle he hwt
                  rw [hst] at hc'
                  have hcd := Option.some.inj hc'
                  have : e = i + 1 := by omega
                  exact this ▸ he
                have hadd : distAdd (some (i + 1)) (dist n A w t) = some d := by
                  rw [hwt, distAdd_some]
                  congr 1
                  omega
                rw [if_pos ⟨hA, hwt⟩, if_pos ⟨hA, hsw, hadd, by simp⟩]
              · rw [if_neg (fun hc => hwt hc.2), if_neg]
                · rw [Nat.cast_zero, mul_zero, zero_div]
                · intro hc
                  rcases hc with ⟨-, -, hadd, -⟩
                  rcases distAdd_eq_some.mp hadd with ⟨x, c, hx, hcdist, hxc⟩
                  cases hx
                  have : c = b' := by omega
                  exact hwt (this ▸ hcdist)
            · rw [if_neg (fun hc => hA hc.1), if_neg (fun hc => hA hc.1)]
              rw [Nat.cast_zero, mul_zero, zero_div]
          · -- v on no shortest s-t walk
            rw [if_neg (by intro hc; exact hib (Option.some.inj hc))]
            rw [Nat.cast_zero, zero_div]
            symm
            refine Finset.sum_eq_zero (fun w _ => ?_)
            rw [if_neg]
            intro hc
            rcases hc with ⟨hA, hw, hadd, -⟩
            rcases distAdd_eq_some.mp hadd with ⟨x, c, hx, hcdist, hxc⟩
            cases hx
            -- d ≤ i + b and i + b ≤ d force i + b = d
            have hup : d ≤ i + b := by
              obtain ⟨c', hcle, hc'⟩ := dist_triangle hv hvt2
              rw [hst] at hc'
              have := Option.some.inj hc'
              omega
            have hlow : b ≤ c + 1 := by
              obtain ⟨b2, hble, hb2⟩ := dist_edge_head hA hcdist
              rw [hvt2] at hb2
              cases hb2
              omega
            omega
  unfold delta
  rw [Finset.sum_congr rfl (fun t _ => hF t), Finset.sum_comm]
  -- Step C: for each successor w, collapse the inner sum over t.
  refine Finset.sum_congr rfl (fun w _ => ?_)
  by_cases hW : A v w ∧ dist n A s w = some (i + 1)
  · rcases hW with ⟨hA, hw⟩
    rw [if_pos ⟨hA, hw⟩]
    have hws : w ≠ s := by
      intro hc
      subst hc
      rw [dist_self] at hw
      cases hw
    -- peel off the t = w term
    rw [← Finset.add_sum_erase Finset.univ _ (Finset.mem_univ w)]
    have hww : (if A v w ∧ dist n A s w = some (i + 1) ∧
        distAdd (some (i + 1)) (dist n A w w) = dist n A s w ∧ dist n A s w ≠ none
        then (sigma n A s v : ℚ) * (sigma n A w w) / (sigma n A s w) else 0)
        = (sigma n A s v : ℚ) / (sigma n A s w) := by
      rw [if_pos ⟨hA, hw, by rw [dist_self, hw, distAdd_some], by rw [hw]; simp⟩]
      rw [sigma_self]
      rw [Nat.cast_one, mul_one]
    rw [hww]
    have hrest : ∀ t ∈ Finset.univ.erase w,
        (if A v w ∧ dist n A s w = some (i + 1) ∧
            distAdd (some (i + 1)) (dist n A w t) = dist n A s t ∧ dist n A s t ≠ none
         then (sigma n A s v : ℚ) * (sigma n A w t) / (sigma n A s t) else 0)
        = (sigma n A s v : ℚ) / (sigma n A s w) *
            ((sigmaVia n A s t w : ℚ) / (sigma n A s t)) := by
      intro t ht
      have htw : t ≠ w := (Finset.mem_erase.mp ht).1
      cases hst : dist n A s t with
      | none =>
        rw [if_neg (fun hc => hc.2.2.2 rfl)]
        unfold sigmaVia
        rw [if_neg (by tauto), hst]
        rw [Nat.cast_zero, zero_div, mul_zero]
      | some d =>
        rw [sigmaVia_eq hws (fun hc => htw hc.symm) hst, hw]
        by_cases hcond : distAdd (some (i + 1)) (dist n A w t) = some d
        · rw [if_pos ⟨hA, rfl, hcond, by simp⟩, if_pos hcond]
          have hsw0 : (sigma n A s w : ℚ) ≠ 0 := sigma_cast_ne_zero hw
          have hst0 : (sigma n A s t : ℚ) ≠ 0 := sigma_cast_ne_zero hst
          rw [Nat.cast_mul]
          field_simp
          ring
        · rw [if_neg (fun hc => hcond hc.2.2.1)]
          rw [if_neg hcond]
          rw [Nat.cast_zero, zero_div, mul_zero]
    rw [Finset.sum_congr rfl hrest, ← Finset.mul_sum]
    -- the t = w term of the unfolded delta s w vanishes
    rw [← Finset.add_sum_erase Finset.univ
        (fun t => (sigmaVia n A s t w : ℚ) / (sigma n A s t)) (Finset.mem_univ w)]
    rw [sigmaVia_self_tgt, Nat.cast_zero, zero_div, zero_add, mul_add, mul_one]
  · rw [if_neg hW]
    refine Finset.sum_eq_zero (fun t _ => ?_)
    rw [if_neg (fun hc => hW ⟨hc.1, hc.2.1⟩)]

end DeltaLemmas

/-! ## Forward phase: layer invariants -/

section ForwardInv

variable {n ns : ℕ} {A : Fin n → Fin n → Bool} {srcs : Fin ns → Fin n}

theorem walkCount_one (s t : Fin n) :
    walkCount n A s t 1 = if A s t then 1 else 0 := by
  have h : walkCount n A s t (0 + 1) = ∑ u : Fin n, if A s u then walkCount n A u t 0 else 0 :=
    walkCount_succ s t 0
  rw [show (1 : ℕ) = 0 + 1 from rfl, h]
  have h2 : ∀ u : Fin n, (if A s u then walkCount n A u t 0 else 0)
      = if u = t then (if A s t then 1 else 0) else 0 := by
    intro u
    by_cases hu : u = t
    · subst hu; by_cases h3 : A s u <;> simp [walkCount_zero, h3]
    · by_cases h3 : A s u <;> simp [walkCount_zero, hu, h3]
  rw [Finset.sum_congr rfl (fun u _ => h2 u), Finset.sum_ite_eq' Finset.univ t]
  simp

theorem dist_one_iff {s t : Fin n} : dist n A s t = some 1 ↔ A s t = true ∧ s ≠ t := by
  constructor
  · intro h
    rcases dist_spec h with ⟨hw, -, hmin⟩
    rw [walkCount_one] at hw
    constructor
    · by_contra hA
      simp [hA] at hw
    · intro hst
      subst hst
      have := hmin 0 one_pos
      rw [walkCount_self] at this
      exact one_ne_zero this
  · intro ⟨hA, hst⟩
    have hw : walkCount n A s t 1 ≠ 0 := by
      rw [walkCount_one, if_pos hA]
      exact one_ne_zero
    obtain ⟨d, hd, hle⟩ := dist_exists_of_walk hw
    have : d ≠ 0 := fun h0 => hst (dist_zero (h0 ▸ hd))
    have : d = 1 := by omega
    exact this ▸ hd

theorem stepF_paths (st : FState n ns) :
    (stepF n ns A st).paths = ewiseAddN n ns st.paths st.frontier := rfl

theorem stepF_frontier (st : FState n ns) :
    (stepF n ns A st).frontier
      = mxmFwd n ns A (ewiseAddN n ns st.paths st.frontier) st.frontier := rfl

theorem stepF_hist (st : FState n ns) :
    (stepF n ns A st).hist = st.hist ++ [applyBool n ns st.frontier] := rfl

theorem stepF_depth (st : FState n ns) :
    (stepF n ns A st).depth = st.depth + 1 := rfl

theorem trajAt_zero : trajAt n ns A srcs 0 = st0 n ns A srcs := rfl

theorem trajAt_succ (k : ℕ) :
    trajAt n ns A srcs (k + 1) = stepF n ns A (trajAt n ns A srcs k) :=
  Function.iterate_succ_apply' (stepF n ns A) k (st0 n ns A srcs)

theorem trajAt_depth (k : ℕ) : (trajAt n ns A srcs k).depth = k := by
  induction k with
  | zero => rfl
  | succ k ih => rw [trajAt_succ, stepF_depth, ih]

/-- Forward invariant: After `k` loop bodies, `paths` holds `sigma` at
exactly the pairs within distance `k`, and the frontier holds `sigma` at
exactly the pairs at distance `k + 1`. -/
theorem traj_inv (k : ℕ) :
    (∀ (v : Fin n) (j : Fin ns), (trajAt n ns A srcs k).paths v j =
      (match dist n A (srcs j) v with
       | some d => if d ≤ k then some (sigma n A (srcs j) v) else none
       | none => none)) ∧
    (∀ (v : Fin n) (j : Fin ns), (trajAt n ns A srcs k).frontier v j =
      if dist n A (srcs j) v = some (k + 1) then some (sigma n A (srcs j) v) else none) := by
  induction k with
  | zero =>
    constructor
    · intro v j
      show paths0 n ns srcs v j = _
      by_cases hsv : srcs j = v
      · subst hsv
        rw [dist_self]
        simp [paths0, sigma_self]
      · rw [paths0, if_neg hsv]
        cases hd : dist n A (srcs j) v with
        | none => rfl
        | some d =>
          have : d ≠ 0 := fun h0 => hsv (dist_zero (h0 ▸ hd))
          simp [this]
    · intro v j
      show frontierInit n ns A srcs v j = _
      rw [frontierInit]
      by_cases hsv : srcs j = v
      · have hmask : maskNZ n ns (paths0 n ns srcs) v j = true := by
          rw [maskNZ, paths0, if_pos hsv]
          rfl
        have hne : ¬dist n A (srcs j) v = some 1 := by
          intro hd
          rw [hsv, dist_self] at hd
          cases hd
        rw [if_pos hmask, if_neg hne]
      · have hmask : maskNZ n ns (paths0 n ns srcs) v j = false := by
          rw [maskNZ, paths0, if_neg hsv]
        rw [if_neg (by rw [hmask]; exact Bool.false_ne_true)]
        by_cases hA : A (srcs j) v
        · rw [if_pos hA, if_pos (dist_one_iff.mpr ⟨hA, fun h => hsv h⟩)]
          have hd1 : dist n A (srcs j) v = some 1 := dist_one_iff.mpr ⟨hA, fun h => hsv h⟩
          rw [sigma_eq_walkCount hd1, walkCount_one, if_pos hA]
        · rw [if_neg hA, if_neg]
          intro hd
          rcases dist_one_iff.mp hd with ⟨hA', -⟩
          exact hA hA'
  | succ k ih =>
    rcases ih with ⟨ihp, ihf⟩
    have hpaths : ∀ (v : Fin n) (j : Fin ns), (trajAt n ns A srcs (k + 1)).paths v j =
        (match dist n A (srcs j) v with
         | some d => if d ≤ k + 1 then some (sigma n A (srcs j) v) else none
         | none => none) := by
      intro v j
      rw [trajAt_succ, stepF_paths, ewiseAddN, ihp v j, ihf v j]
      cases hd : dist n A (srcs j) v with
      | none => rfl
      | some d =>
        dsimp only
        by_cases h1 : d ≤ k
        · rw [if_pos h1, if_neg (by intro hc; cases hc; omega), if_pos (by omega)]
        · by_cases h2 : d = k + 1
          · subst h2
            rw [if_neg h1, if_pos rfl, if_pos (le_refl (k + 1))]
          · rw [if_neg h1, if_neg (by intro hc; cases hc; exact h2 rfl), if_neg (by omega)]
    refine ⟨hpaths, ?_⟩
    intro v j
    rw [trajAt_succ, stepF_frontier]
    have hpaths' : ewiseAddN n ns (trajAt n ns A srcs k).paths (trajAt n ns A srcs k).frontier
        = (trajAt n ns A srcs (k + 1)).paths := by
      rw [trajAt_succ, stepF_paths]
    rw [mxmFwd, hpaths']
    have hmask : maskNZ n ns (trajAt n ns A srcs (k + 1)).paths v j
        = (match dist n A (srcs j) v with
           | some d => decide (d ≤ k + 1)
           | none => false) := by
      rw [maskNZ, hpaths v j]
      cases hd : dist n A (srcs j) v with
      | none => rfl
      | some d =>
        dsimp only
        by_cases h1 : d ≤ k + 1
        · rw [if_pos h1]
          simp [sigma_ne_zero hd, h1]
        · rw [if_neg h1]
          simp [h1]
    cases hd : dist n A (srcs j) v with
    | some d =>
      by_cases h1 : d ≤ k + 1
      · rw [hmask, hd]
        dsimp only
        rw [if_pos (by simp [h1])]
        rw [if_neg (by intro hc; cases hc; omega)]
      · rw [hmask, hd]
        dsimp only
        rw [if_neg (by simp [h1])]
        by_cases h2 : d = k + 2
        · subst h2
          -- the pair enters the frontier: expand sigma by the last step
          have hsig := sigma_last_step hd
          have hex : ∃ u : Fin n, A u v ∧ ((trajAt n ns A srcs k).frontier u j).isSome := by
            have hnz : sigma n A (srcs j) v ≠ 0 := sigma_ne_zero hd
            rw [hsig] at hnz
            rcases Finset.exists_ne_zero_of_sum_ne_zero hnz with ⟨u, -, hu⟩
            have hAu : A u v ∧ dist n A (srcs j) u = some (k + 1) := by
              by_contra hc
              rw [if_neg hc] at hu
              exact hu rfl
            refine ⟨u, hAu.1, ?_⟩
            rw [ihf u j, if_pos hAu.2]
            rfl
          rw [if_pos hex, if_pos rfl]
          congr 1
          rw [hsig]
          refine (Finset.sum_congr rfl (fun u _ => ?_)).symm
          rw [ihf u j]
          by_cases hA : A u v
          · by_cases hu : dist n A (srcs j) u = some (k + 1)
            · rw [if_pos ⟨hA, hu⟩, if_pos hu, if_pos hA]
              rfl
            · rw [if_neg (fun hc => hu hc.2), if_neg hu, if_pos hA]
              rfl
          · rw [if_neg (fun hc => hA hc.1), if_neg hA]
        · -- distance beyond k+2: no predecessor in the frontier
          rw [if_neg, if_neg (by intro hc; cases hc; exact h2 rfl)]
          intro hex
          rcases hex with ⟨u, hA, hu⟩
          rw [ihf u j] at hu
          by_cases hdu : dist n A (srcs j) u = some (k + 1)
          · have hw : walkCount n A (srcs j) v (k + 2) ≠ 0 :=
              walkCount_succ_last_ne_zero hA (dist_spec hdu).1
            obtain ⟨d', hd', hle⟩ := dist_exists_of_walk hw
            rw [hd] at hd'
            cases hd'
            omega
          · rw [if_neg hdu] at hu
            simp at hu
    | none =>
      rw [hmask, hd]
      dsimp only
      rw [if_neg (by simp)]
      rw [if_neg, if_neg (by simp)]
      intro hex
      rcases hex with ⟨u, hA, hu⟩
      rw [ihf u j] at hu
      by_cases hdu : dist n A (srcs j) u = some (k + 1)
      · have hw : walkCount n A (srcs j) v (k + 2) ≠ 0 :=
          walkCount_succ_last_ne_zero hA (dist_spec hdu).1
        obtain ⟨d', hd', hle⟩ := dist_exists_of_walk hw
        rw [hd] at hd'
        cases hd'
      · rw [if_neg hdu] at hu
        simp at hu

end ForwardInv

/-! ## The loop: history, termination, fuel independence -/

section LoopLemmas

variable {n ns : ℕ} {A : Fin n → Fin n → Bool} {srcs : Fin ns → Fin n}

theorem traj_hist (k : ℕ) :
    (trajAt n ns A srcs k).hist = (List.range k).map (Sspec n ns A srcs) := by
  induction k with
  | zero => rfl
  | succ k ih =>
    rw [trajAt_succ, stepF_hist, ih, List.range_succ, List.map_append]
    congr 1
    rw [List.map_cons, List.map_nil]
    congr 1
    funext v j
    rw [applyBool, (traj_inv k).2 v j, Sspec]
    by_cases hd : dist n A (srcs j) v = some (k + 1)
    · rw [if_pos hd, if_pos hd, Option.map_some']
      congr 1
      simp [sigma_ne_zero hd]
    · rw [if_neg hd, if_neg hd]
      rfl

theorem frontier_empty_of_ge (k : ℕ) (hk : n ≤ k + 1) :
    frontierEmpty n ns (trajAt n ns A srcs k) := by
  intro v j
  rw [(traj_inv k).2 v j, if_neg]
  intro hd
  have := (dist_spec hd).2.1
  omega

theorem runF_spec {fuel : ℕ} :
    ∀ {st : FState n ns} {m : ℕ}, 1 ≤ m → m ≤ fuel →
      frontierEmpty n ns ((stepF n ns A)^[m] st) →
      ∃ D, 1 ≤ D ∧ D ≤ m ∧ runF n ns A fuel st = (stepF n ns A)^[D] st ∧
        frontierEmpty n ns ((stepF n ns A)^[D] st) ∧
        ∀ m', 1 ≤ m' → m' < D → ¬frontierEmpty n ns ((stepF n ns A)^[m'] st) := by
  induction fuel with
  | zero => intro st m hm1 hmf _; omega
  | succ fuel ih =>
    intro st m hm1 hmf hE
    by_cases hE1 : frontierEmpty n ns (stepF n ns A st)
    · refine ⟨1, le_refl 1, hm1, ?_, ?_, ?_⟩
      · rw [runF, if_pos hE1, Function.iterate_one]
      · rw [Function.iterate_one]
        exact hE1
      · intro m' h1 h2
        omega
    · have hm2 : 2 ≤ m := by
        rcases Nat.lt_or_ge m 2 with h | h
        · exfalso
          have : m = 1 := by omega
          subst this
          rw [Function.iterate_one] at hE
          exact hE1 hE
        · exact h
      have hEm : frontierEmpty n ns ((stepF n ns A)^[m - 1] (stepF n ns A st)) := by
        have h' : (stepF n ns A)^[m - 1] (stepF n ns A st) = (stepF n ns A)^[m] st := by
          rw [← Function.iterate_succ_apply]
          congr 1
          omega
        rw [h']
        exact hE
      obtain ⟨D', hD1, hDm, hrun, hED, hmin⟩ :=
        ih (le_refl 1 |>.trans (by omega)) (by omega) hEm
      refine ⟨D' + 1, by omega, by omega, ?_, ?_, ?_⟩
      · rw [runF, if_neg hE1, hrun, Function.iterate_succ_apply]
      · rw [Function.iterate_succ_apply]
        exact hED
      · intro m' h1 h2
        by_cases hm'1 : m' = 1
        · subst hm'1
          rw [Function.iterate_one]
          exact hE1
        · rw [show m' = (m' - 1) + 1 by omega, Function.iterate_succ_apply]
          exact hmin (m' - 1) (by omega) (by omega)

/-- Termination of the BFS loop, and fuel independence: the do-while runs
for exactly `depthF` bodies, `depthF` is between `1` and `max (n-1) 1`, the
final frontier is empty, earlier frontiers were not, and a larger fuel yields
the same state. -/
theorem fwdRun_spec :
    fwdRun n ns A srcs = trajAt n ns A srcs (depthF n ns A srcs) ∧
    1 ≤ depthF n ns A srcs ∧ depthF n ns A srcs ≤ max (n - 1) 1 ∧
    frontierEmpty n ns (fwdRun n ns A srcs) ∧
    (∀ m', 1 ≤ m' → m' < depthF n ns A srcs →
      ¬frontierEmpty n ns (trajAt n ns A srcs m')) ∧
    (∀ fuel, n + 1 ≤ fuel → runF n ns A fuel (st0 n ns A srcs) = fwdRun n ns A srcs) := by
  have hm1 : 1 ≤ max (n - 1) 1 := le_max_right _ _
  have hE : frontierEmpty n ns (trajAt n ns A srcs (max (n - 1) 1)) :=
    frontier_empty_of_ge (max (n - 1) 1) (by omega)
  obtain ⟨D, hD1, hDm, hrun, hED, hmin⟩ :=
    runF_spec hm1 (show max (n - 1) 1 ≤ n + 1 by omega) hE
  have hfwd : fwdRun n ns A srcs = trajAt n ns A srcs D := hrun
  have hdepth : depthF n ns A srcs = D := by
    have h1 : depthF n ns A srcs = (trajAt n ns A srcs D).depth := by
      show (runF n ns A (n + 1) (st0 n ns A srcs)).depth = _
      rw [hrun]
      rfl
    rw [h1, trajAt_depth]
  rw [hdepth, hfwd]
  refine ⟨rfl, hD1, by omega, hED, hmin, ?_⟩
  intro fuel hfuel
  obtain ⟨D2, hD21, hD2m, hrun2, hED2, hmin2⟩ :=
    runF_spec hm1 (show max (n - 1) 1 ≤ fuel by omega) hE
  have hDD : D2 = D := by
    by_contra hne
    rcases Nat.lt_or_ge D2 D with h | h
    · exact hmin D2 hD21 h hED2
    · exact hmin2 D hD1 (by omega) hED
  rw [hrun2, hDD]
  rfl

theorem fwdRun_eq_traj :
    fwdRun n ns A srcs = trajAt n ns A srcs (depthF n ns A srcs) :=
  (fwdRun_spec).1

theorem depthF_pos : 1 ≤ depthF n ns A srcs := (fwdRun_spec).2.1

theorem depthF_le : depthF n ns A srcs ≤ max (n - 1) 1 := (fwdRun_spec).2.2.1

theorem dist_pred {s v : Fin n} {d : ℕ} (h : dist n A s v = some (d + 1)) :
    ∃ u, A u v = true ∧ dist n A s u = some d := by
  have hsig := sigma_last_step h
  have hnz := sigma_ne_zero h
  rw [hsig] at hnz
  rcases Finset.exists_ne_zero_of_sum_ne_zero hnz with ⟨u, -, hu⟩
  by_cases hc : A u v = true ∧ dist n A s u = some d
  · exact ⟨u, hc⟩
  · rw [if_neg hc] at hu
    exact absurd rfl hu

theorem dist_exists_at {s : Fin n} :
    ∀ {d : ℕ} {v : Fin n}, dist n A s v = some d → ∀ m ≤ d, ∃ u, dist n A s u = some m := by
  intro d
  induction d with
  | zero =>
    intro v h m hm
    have : m = 0 := by omega
    subst this
    exact ⟨v, h⟩
  | succ d ih =>
    intro v h m hm
    by_cases hmd : m = d + 1
    · exact ⟨v, hmd ▸ h⟩
    · obtain ⟨u, -, hu⟩ := dist_pred h
      exact ih hu m (by omega)

/-- Every finite BFS distance is at most the final depth counter. -/
theorem dist_le_depthF {v : Fin n} {j : Fin ns} {d : ℕ}
    (h : dist n A (srcs j) v = some d) : d ≤ depthF n ns A srcs := by
  by_contra hlt
  push_neg at hlt
  obtain ⟨u, hu⟩ := dist_exists_at h (depthF n ns A srcs + 1) (by omega)
  have hE : (trajAt n ns A srcs (depthF n ns A srcs)).frontier u j = none := by
    have := (@fwdRun_spec n ns A srcs).2.2.2.1
    rw [fwdRun_eq_traj] at this
    exact this u j
  rw [(traj_inv (depthF n ns A srcs)).2 u j, if_pos hu] at hE
  cases hE

theorem pathsF_char (v : Fin n) (j : Fin ns) :
    pathsF n ns A srcs v j =
      match dist n A (srcs j) v with
      | some _ => some (sigma n A (srcs j) v)
      | none => none := by
  rw [pathsF, fwdRun_eq_traj, (traj_inv (depthF n ns A srcs)).1 v j]
  cases hd : dist n A (srcs j) v with
  | none => rfl
  | some d =>
    dsimp only
    rw [if_pos (dist_le_depthF hd)]

theorem histF_eq :
    histF n ns A srcs
      = (List.range (depthF n ns A srcs)).map (Sspec n ns A srcs) := by
  rw [histF, fwdRun_eq_traj, traj_hist]

theorem getD_map_range {α : Type} (f : ℕ → α) (k i : ℕ) (hi : i < k) (dflt : α) :
    ((List.range k).map f).getD i dflt = f i := by
  rw [List.getD_eq_getElem?_getD, List.getElem?_map, List.getElem?_range hi]
  rfl

theorem SAt_char {i : ℕ} (hi : i < depthF n ns A srcs) :
    SAt n ns A srcs i = Sspec n ns A srcs i := by
  rw [SAt, histF_eq, getD_map_range _ _ _ hi]

end LoopLemmas

/-! ## Backward phase: dependency invariant -/

section BackwardInv

variable {n ns : ℕ} {A : Fin n → Fin n → Bool} {srcs : Fin ns → Fin n}

theorem invPathsF_char (v : Fin n) (j : Fin ns) :
    invPathsF n ns A srcs v j =
      match dist n A (srcs j) v with
      | some _ => some ((sigma n A (srcs j) v : ℚ)⁻¹)
      | none => none := by
  rw [invPathsF, pathsF_char]
  cases dist n A (srcs j) v <;> rfl

theorem pathsQ_char (v : Fin n) (j : Fin ns) :
    pathsQ n ns A srcs v j =
      match dist n A (srcs j) v with
      | some _ => some ((sigma n A (srcs j) v : ℚ))
      | none => none := by
  rw [pathsQ, pathsF_char]
  cases dist n A (srcs j) v <;> rfl

theorem maskT_Sspec {i : ℕ} (hi : i < depthF n ns A srcs) (v : Fin n) (j : Fin ns) :
    maskT n ns (SAt n ns A srcs i) v j
      = decide (dist n A (srcs j) v = some (i + 1)) := by
  rw [SAt_char hi, maskT, Sspec]
  by_cases hd : dist n A (srcs j) v = some (i + 1)
  · rw [if_pos hd]
    simp [hd]
  · rw [if_neg hd]
    simp [hd]

theorem delta_eq_zero_of_no_succ {s v : Fin n} {i : ℕ} (hi : i ≠ 0)
    (hv : dist n A s v = some i)
    (h : ∀ w, ¬(A v w = true ∧ dist n A s w = some (i + 1))) :
    delta n A s v = 0 := by
  rw [delta_recurrence hi hv]
  exact Finset.sum_eq_zero (fun w _ => if_neg (h w))

/-- The dense all-ones initialization satisfies the invariant at level
`depthF` (pairs at the maximal distance have zero dependency). -/
theorem bcInit_inv (v : Fin n) (j : Fin ns) :
    bcInit n ns v j = some (bcVal n ns A srcs (depthF n ns A srcs) v j) := by
  rw [bcInit, bcVal]
  cases hd : dist n A (srcs j) v with
  | none => rfl
  | some d =>
    dsimp only
    by_cases hle : depthF n ns A srcs ≤ d
    · rw [if_pos hle]
      have hdd : d = depthF n ns A srcs := le_antisymm (dist_le_depthF hd) hle
      have hδ : delta n A (srcs j) v = 0 := by
        refine delta_eq_zero_of_no_succ ?_ hd ?_
        · have := @depthF_pos n ns A srcs
          omega
        · intro w hc
          have := dist_le_depthF hc.2
          omega
      rw [hδ, add_zero]
    · rw [if_neg hle]

theorem backTemp1_char {i : ℕ} (_hi1 : 1 ≤ i) (hiD : i ≤ depthF n ns A srcs - 1)
    {bc : Mat n ns ℚ} (hbc : ∀ v j, bc v j = some (bcVal n ns A srcs (i + 1) v j))
    (w : Fin n) (j : Fin ns) :
    backTemp1 n ns A srcs i bc w j =
      if dist n A (srcs j) w = some (i + 1)
      then some ((1 + delta n A (srcs j) w) * (sigma n A (srcs j) w : ℚ)⁻¹)
      else none := by
  have hiD' : i < depthF n ns A srcs := by
    have := @depthF_pos n ns A srcs
    omega
  rw [backTemp1, maskT_Sspec hiD']
  by_cases hd : dist n A (srcs j) w = some (i + 1)
  · rw [if_pos (by simp [hd]), if_pos hd]
    rw [hbc w j, invPathsF_char w j, bcVal, hd]
    dsimp only
    rw [if_pos (by omega)]
  · rw [if_neg (by simp [hd]), if_neg hd]

theorem backTemp2_char {i : ℕ} (hi1 : 1 ≤ i) (hiD : i ≤ depthF n ns A srcs - 1)
    {bc : Mat n ns ℚ} (hbc : ∀ v j, bc v j = some (bcVal n ns A srcs (i + 1) v j))
    (v : Fin n) (j : Fin ns) :
    backTemp2 n ns A srcs i bc v j =
      if dist n A (srcs j) v = some i ∧
          (∃ w, A v w = true ∧ dist n A (srcs j) w = some (i + 1))
      then some (∑ w : Fin n,
        if A v w = true ∧ dist n A (srcs j) w = some (i + 1)
        then (1 + delta n A (srcs j) w) * (sigma n A (srcs j) w : ℚ)⁻¹ else 0)
      else none := by
  have hiD1 : i - 1 < depthF n ns A srcs := by
    have := @depthF_pos n ns A srcs
    omega
  have hmask := @maskT_Sspec n ns A srcs (i - 1) hiD1 v j
  rw [show i - 1 + 1 = i by omega] at hmask
  rw [backTemp2]
  have hiff : (maskT n ns (SAt n ns A srcs (i - 1)) v j = true ∧
      ∃ w, A v w = true ∧ (backTemp1 n ns A srcs i bc w j).isSome = true)
      ↔ (dist n A (srcs j) v = some i ∧
          ∃ w, A v w = true ∧ dist n A (srcs j) w = some (i + 1)) := by
    rw [hmask]
    constructor
    · rintro ⟨h1, w, hA, hw⟩
      refine ⟨by simpa using h1, w, hA, ?_⟩
      rw [backTemp1_char hi1 hiD hbc w j] at hw
      by_cases hd : dist n A (srcs j) w = some (i + 1)
      · exact hd
      · rw [if_neg hd] at hw
        simp at hw
    · rintro ⟨h1, w, hA, hw⟩
      refine ⟨by simpa using h1, w, hA, ?_⟩
      rw [backTemp1_char hi1 hiD hbc w j, if_pos hw]
      rfl
  by_cases hc : dist n A (srcs j) v = some i ∧
      (∃ w, A v w = true ∧ dist n A (srcs j) w = some (i + 1))
  · rw [if_pos (hiff.mpr hc), if_pos hc]
    congr 1
    refine Finset.sum_congr rfl (fun w _ => ?_)
    by_cases hA : A v w
    · rw [if_pos hA, backTemp1_char hi1 hiD hbc w j]
      by_cases hd : dist n A (srcs j) w = some (i + 1)
      · rw [if_pos hd, if_pos ⟨hA, hd⟩]
        rfl
      · rw [if_neg hd, if_neg (fun hq => hd hq.2)]
        rfl
    · rw [if_neg hA, if_neg (fun hq => hA hq.1)]
  · rw [if_neg (fun hq => hc (hiff.mp hq)), if_neg hc]

/-- Backward step lemma: one iteration at depth index `i` finalizes the
pairs at distance `i`. -/
theorem backStep_inv {i : ℕ} (hi1 : 1 ≤ i) (hiD : i ≤ depthF n ns A srcs - 1)
    {bc : Mat n ns ℚ} (hbc : ∀ v j, bc v j = some (bcVal n ns A srcs (i + 1) v j))
    (v : Fin n) (j : Fin ns) :
    backStep n ns A srcs i bc v j = some (bcVal n ns A srcs i v j) := by
  rw [backStep, backTemp2_char hi1 hiD hbc v j, pathsQ_char v j]
  by_cases hc : dist n A (srcs j) v = some i ∧
      (∃ w, A v w = true ∧ dist n A (srcs j) w = some (i + 1))
  · rcases hc with ⟨hd, hex⟩
    rw [if_pos ⟨hd, hex⟩, hd]
    dsimp only
    rw [hbc v j]
    have hbcv : bcVal n ns A srcs (i + 1) v j = 1 := by
      rw [bcVal, hd]
      dsimp only
      rw [if_neg (by omega)]
    rw [hbcv]
    have hgoal : bcVal n ns A srcs i v j = 1 + delta n A (srcs j) v := by
      rw [bcVal, hd]
      dsimp only
      rw [if_pos (le_refl i)]
    rw [hgoal]
    congr 1
    rw [Option.getD_some]
    have hrec := delta_recurrence (by omega) hd
    rw [hrec, Finset.sum_mul]
    have hterm : ∀ w : Fin n,
        (if A v w = true ∧ dist n A (srcs j) w = some (i + 1)
         then (sigma n A (srcs j) v : ℚ) / (sigma n A (srcs j) w) * (1 + delta n A (srcs j) w)
         else 0)
        = (if A v w = true ∧ dist n A (srcs j) w = some (i + 1)
           then (1 + delta n A (srcs j) w) * (sigma n A (srcs j) w : ℚ)⁻¹ else 0)
            * (sigma n A (srcs j) v : ℚ) := by
      intro w
      by_cases hq : A v w = true ∧ dist n A (srcs j) w = some (i + 1)
      · rw [if_pos hq, if_pos hq]
        rw [div_eq_mul_inv]
        ring
      · rw [if_neg hq, if_neg hq, zero_mul]
    rw [Finset.sum_congr rfl (fun w _ => hterm w)]
  · rw [if_neg hc]
    rw [hbc v j]
    cases hd : dist n A (srcs j) v with
    | none =>
      dsimp only
      rw [bcVal, bcVal, hd]
    | some d =>
      by_cases hdi : d = i
      · -- distance i but no successors at i + 1: the dependency is zero
        subst hdi
        have hnos : ∀ w, ¬(A v w = true ∧ dist n A (srcs j) w = some (d + 1)) := by
          intro w hq
          exact hc ⟨hd, w, hq⟩
        have hδ : delta n A (srcs j) v = 0 :=
          delta_eq_zero_of_no_succ (by omega) hd hnos
        dsimp only
        rw [bcVal, bcVal, hd]
        dsimp only
        rw [if_neg (by omega), if_pos (le_refl d), hδ, add_zero]
      · dsimp only
        rw [bcVal, bcVal, hd]
        dsimp only
        by_cases hle : i ≤ d
        · rw [if_pos (by omega), if_pos hle]
        · rw [if_neg (by omega), if_neg hle]

theorem processFrom_inv :
    ∀ i, i ≤ depthF n ns A srcs - 1 →
      ∀ bc : Mat n ns ℚ, (∀ v j, bc v j = some (bcVal n ns A srcs (i + 1) v j)) →
      ∀ v j, processFrom n ns A srcs i bc v j = some (bcVal n ns A srcs 1 v j) := by
  intro i
  induction i with
  | zero =>
    intro _ bc hbc v j
    rw [processFrom]
    exact hbc v j
  | succ i ih =>
    intro hiD bc hbc v j
    rw [processFrom]
    exact ih (by omega) _ (backStep_inv (by omega) hiD hbc) v j

/-- Final dependency matrix: after the backward loop, `bc_update` holds
`1 + delta` at every pair at finite positive distance and `1` elsewhere. -/
theorem bcFinal_char (v : Fin n) (j : Fin ns) :
    bcFinal n ns A srcs v j = some (bcVal n ns A srcs 1 v j) := by
  rw [bcFinal]
  refine processFrom_inv (depthF n ns A srcs - 1) (le_refl _) _ ?_ v j
  intro v' j'
  rw [show depthF n ns A srcs - 1 + 1 = depthF n ns A srcs by
    have := @depthF_pos n ns A srcs
    omega]
  exact bcInit_inv v' j'

/-- The produced centrality vector, in closed form. -/
theorem centralityV_char (v : Fin n) :
    centralityV n ns A srcs v
      = some (-(ns : ℚ) + ∑ j : Fin ns, bcVal n ns A srcs 1 v j) := by
  rw [centralityV, reduceRowsAccum]
  by_cases hns : ∃ j : Fin ns, ((bcFinal n ns A srcs v j).isSome : Prop)
  · rw [if_pos hns]
    congr 1
    rw [assignScalar, Option.getD_some]
    congr 1
    refine Finset.sum_congr rfl (fun j _ => ?_)
    rw [bcFinal_char v j, Option.getD_some]
  · rw [if_neg hns]
    have hns0 : ns = 0 := by
      by_contra h0
      exact hns ⟨⟨0, by omega⟩, by rw [bcFinal_char]; rfl⟩
    subst hns0
    rw [assignScalar]
    congr 1
    rw [Finset.univ_eq_empty, Finset.sum_empty, add_zero]

end BackwardInv

/-! ## Claim theorems -/

section Claims

theorem bcRef_eq_sum_delta (n : ℕ) (A : Fin n → Fin n → Bool) (i : Fin n) :
    bcRef n A i = ∑ s : Fin n, delta n A s i := rfl

/-- C1: For every graph, calling `LAGraph_bc_batch` with
`sources = GrB_ALL` and `num_sources = n` returns a centrality vector equal to
the classical exact betweenness centrality of every node:
`result[i] = Σ_{s ≠ i ≠ t} sigma(s,t|i)/sigma(s,t)` (computed by brute force
in `bcRef`). -/
theorem C1_all_sources_exact (n : ℕ) (A : Fin n → Fin n → Bool) (i : Fin n) :
    bcBatchAll n A i = some (bcRef n A i) := by
  rw [bcBatchAll, centralityV_char]
  congr 1
  have hterm : ∀ s : Fin n, bcVal n n A (fun j => j) 1 i s = 1 + delta n A s i := by
    intro s
    rw [bcVal]
    cases hd : dist n A s i with
    | none =>
      dsimp only
      rw [delta_unreachable hd, add_zero]
    | some d =>
      dsimp only
      by_cases h1 : 1 ≤ d
      · rw [if_pos h1]
      · have hd0 : d = 0 := by omega
        subst hd0
        have hsi : s = i := dist_zero hd
        subst hsi
        rw [if_neg h1, delta_self, add_zero]
  rw [Finset.sum_congr rfl (fun s _ => hterm s), Finset.sum_add_distrib,
    Finset.sum_const, Finset.card_univ, Fintype.card_fin, bcRef_eq_sum_delta]
  rw [nsmul_eq_mul, mul_one]
  ring

theorem countP_le_one_of_unique {q : ℕ → Bool} {k : ℕ}
    (h : ∀ a b, q a = true → q b = true → a = b) :
    (List.range k).countP q ≤ 1 := by
  induction k with
  | zero => simp
  | succ k ih =>
    rw [List.range_succ, List.countP_append]
    by_cases hq : q k = true
    · have h0 : (List.range k).countP q = 0 := by
        rw [List.countP_eq_zero]
        intro a ha hqa
        have hak := h a k hqa hq
        subst hak
        exact absurd (List.mem_range.mp ha) (lt_irrefl a)
      have h1 : List.countP q [k] ≤ 1 := by
        rw [List.countP_cons]
        simp [hq]
      omega
    · have h1 : List.countP q [k] = 0 := by
        rw [List.countP_cons]
        simp [hq]
      omega

/-- C2: Over the whole depth-history sequence `S_array[0..depth-1]`
produced by the forward phase, every `(node, source)` pair is recorded `true`
in exactly one depth matrix or in none — never at two different depths. -/
theorem C2_single_discovery (n ns : ℕ) (A : Fin n → Fin n → Bool)
    (srcs : Fin ns → Fin n) (v : Fin n) (j : Fin ns) :
    (histF n ns A srcs).countP (fun S => decide (S v j = some true)) ≤ 1 := by
  rw [histF_eq, List.countP_map]
  refine countP_le_one_of_unique ?_
  intro a b ha hb
  have h1 : Sspec n ns A srcs a v j = some true := by
    have := of_decide_eq_true ha
    exact this
  have h2 : Sspec n ns A srcs b v j = some true := by
    have := of_decide_eq_true hb
    exact this
  have ha' : dist n A (srcs j) v = some (a + 1) := by
    by_contra hc
    rw [Sspec, if_neg hc] at h1
    cases h1
  have hb' : dist n A (srcs j) v = some (b + 1) := by
    by_contra hc
    rw [Sspec, if_neg hc] at h2
    cases h2
  rw [ha'] at hb'
  have := Option.some.inj hb'
  omega

/-- C9: Throughout the forward phase, path counts are monotone: once an
entry is present in the `paths` matrix its value never decreases at any later
depth, and every present entry is strictly positive. -/
theorem C9_path_count_monotone (n ns : ℕ) (A : Fin n → Fin n → Bool)
    (srcs : Fin ns → Fin n) :
    (∀ (k k' : ℕ) (v : Fin n) (j : Fin ns) (c : ℕ), k ≤ k' →
      pathsAt n ns A srcs k v j = some c →
      ∃ c', pathsAt n ns A srcs k' v j = some c' ∧ c ≤ c') ∧
    (∀ (k : ℕ) (v : Fin n) (j : Fin ns) (c : ℕ),
      pathsAt n ns A srcs k v j = some c → 0 < c) := by
  have hchar : ∀ (k : ℕ) (v : Fin n) (j : Fin ns) (c : ℕ),
      pathsAt n ns A srcs k v j = some c →
      c = sigma n A (srcs j) v ∧ ∃ d, dist n A (srcs j) v = some d ∧ d ≤ k := by
    intro k v j c hc
    rw [pathsAt, (traj_inv k).1 v j] at hc
    cases hd : dist n A (srcs j) v with
    | none => rw [hd] at hc; cases hc
    | some d =>
      rw [hd] at hc
      dsimp only at hc
      by_cases hle : d ≤ k
      · rw [if_pos hle] at hc
        exact ⟨(Option.some.inj hc).symm, d, rfl, hle⟩
      · rw [if_neg hle] at hc
        cases hc
  constructor
  · intro k k' v j c hkk hc
    obtain ⟨hcσ, d, hd, hdk⟩ := hchar k v j c hc
    refine ⟨sigma n A (srcs j) v, ?_, by omega⟩
    rw [pathsAt, (traj_inv k').1 v j, hd]
    dsimp only
    rw [if_pos (by omega)]
  · intro k v j c hc
    obtain ⟨hcσ, d, hd, hdk⟩ := hchar k v j c hc
    subst hcσ
    exact Nat.pos_of_ne_zero (sigma_ne_zero hd)

/-- Witness for C9 at a concrete input: the directed path `0 → 1` from source
`0`, where the entry for node 1 appears at step 1 with value 1 and persists. -/
theorem C9_witness :
    (0 : ℕ) ≤ 2 ∧ pathsAt 2 1 (fun a b => a.val + 1 == b.val) (fun _ => 0) 0 0 0 = some 1 ∧
    (∃ c', pathsAt 2 1 (fun a b => a.val + 1 == b.val) (fun _ => 0) 2 0 0 = some c' ∧ 1 ≤ c') ∧
    0 < 1 := by
  refine ⟨by decide, by decide, ?_, by decide⟩
  exact (C9_path_count_monotone 2 1 (fun a b => a.val + 1 == b.val) (fun _ => 0)).1
    0 2 0 0 1 (by decide) (by decide)

end Claims

section Claims2

variable {n ns : ℕ} {A : Fin n → Fin n → Bool} {srcs : Fin ns → Fin n}

theorem backIdxList_succ (d : ℕ) : backIdxList (d + 1) = (d + 1) :: backIdxList d := by
  rw [backIdxList, backIdxList, List.range'_concat, List.reverse_append]
  simp [Nat.add_comm]

theorem processFrom_eq_foldl (d : ℕ) (bc : Mat n ns ℚ) :
    processFrom n ns A srcs d bc
      = (backIdxList d).foldl (fun bc i => backStep n ns A srcs i bc) bc := by
  induction d generalizing bc with
  | zero => rfl
  | succ d ih =>
    rw [processFrom, ih, backIdxList_succ, List.foldl_cons]

/-- C3: The backward phase iterates the depth index from `depth-1` down
to `1` inclusive, never processing index `0`, and each iteration performs, in
order: (1) the masked-replace eWiseMult of the dependency and inverse-path
matrices restricted to `S_array[i]`, (2) the masked-replace multiply-accumulate
of the adjacency structure with that credit share restricted to
`S_array[i-1]`, and (3) the PLUS-accumulated eWiseMult of the propagated
result with the path-count matrix into the dependency matrix. -/
theorem C3_backward_structure (n ns : ℕ) (A : Fin n → Fin n → Bool)
    (srcs : Fin ns → Fin n) :
    bcFinal n ns A srcs
      = (backIdxList (depthF n ns A srcs - 1)).foldl
          (fun bc i => backStep n ns A srcs i bc) (bcInit n ns) ∧
    backIdxList (depthF n ns A srcs - 1)
      = (List.range' 1 (depthF n ns A srcs - 1)).reverse ∧
    (∀ i ∈ backIdxList (depthF n ns A srcs - 1),
      1 ≤ i ∧ i ≤ depthF n ns A srcs - 1) ∧
    0 ∉ backIdxList (depthF n ns A srcs - 1) ∧
    ∀ (i : ℕ) (bc : Mat n ns ℚ),
      backStep n ns A srcs i bc
        = eWiseMultAccum n ns bc
            (mxmMaskRep n ns A (SAt n ns A srcs (i - 1))
              (eWiseMultMaskRep n ns (SAt n ns A srcs i) bc (invPathsF n ns A srcs)))
            (pathsQ n ns A srcs) := by
  refine ⟨processFrom_eq_foldl _ _, rfl, ?_, ?_, ?_⟩
  · intro i hi
    rw [backIdxList, List.mem_reverse, List.mem_range'_1] at hi
    omega
  · intro h0
    rw [backIdxList, List.mem_reverse, List.mem_range'_1] at h0
    omega
  · intro i bc
    funext v j
    have h1 : eWiseMultMaskRep n ns (SAt n ns A srcs i) bc (invPathsF n ns A srcs)
        = backTemp1 n ns A srcs i bc := rfl
    have h2 : mxmMaskRep n ns A (SAt n ns A srcs (i - 1)) (backTemp1 n ns A srcs i bc)
        = backTemp2 n ns A srcs i bc := rfl
    rw [h1, h2, backStep, eWiseMultAccum]
    cases backTemp2 n ns A srcs i bc v j <;> cases pathsQ n ns A srcs v j <;> rfl

/-- Witness for C3 at a concrete input (the 2-node path graph from source 0). -/
theorem C3_witness :
    (∀ i ∈ backIdxList (depthF 2 1 (fun a b => a.val + 1 == b.val) (fun _ => 0) - 1),
      1 ≤ i ∧ i ≤ depthF 2 1 (fun a b => a.val + 1 == b.val) (fun _ => 0) - 1) ∧
    0 ∉ backIdxList (depthF 2 1 (fun a b => a.val + 1 == b.val) (fun _ => 0) - 1) :=
  ⟨(C3_backward_structure 2 1 (fun a b => a.val + 1 == b.val) (fun _ => 0)).2.2.1,
   (C3_backward_structure 2 1 (fun a b => a.val + 1 == b.val) (fun _ => 0)).2.2.2.1⟩

/-- C4 (amended): For every graph and non-empty source list the forward
do-while loop terminates — any fuel of at least `n + 1` bodies yields the same
final state, whose advanced frontier is empty — and the final depth counter is
at most `max (n-1) 1` (the do-while body always runs at least once, so the
spec bound `n-1` holds for `n ≥ 2` but not for `n = 1`). -/
theorem C4_forward_terminates (n ns : ℕ) (A : Fin n → Fin n → Bool)
    (srcs : Fin ns → Fin n) (_hns : 0 < ns) :
    (∀ fuel, n + 1 ≤ fuel →
      runF n ns A fuel (st0 n ns A srcs) = fwdRun n ns A srcs) ∧
    frontierEmpty n ns (fwdRun n ns A srcs) ∧
    1 ≤ depthF n ns A srcs ∧ depthF n ns A srcs ≤ max (n - 1) 1 := by
  obtain ⟨-, h1, h2, h3, -, h4⟩ := @fwdRun_spec n ns A srcs
  exact ⟨h4, h3, h1, h2⟩

/-- Witness for C4 at a concrete input: the 2-node path graph from source 0. -/
theorem C4_witness :
    0 < 1 ∧
    (frontierEmpty 2 1 (fwdRun 2 1 (fun a b => a.val + 1 == b.val) (fun _ => 0)) ∧
      1 ≤ depthF 2 1 (fun a b => a.val + 1 == b.val) (fun _ => 0) ∧
      depthF 2 1 (fun a b => a.val + 1 == b.val) (fun _ => 0) ≤ max (2 - 1) 1) :=
  ⟨Nat.zero_lt_one,
   (C4_forward_terminates 2 1 (fun a b => a.val + 1 == b.val) (fun _ => 0)
      Nat.zero_lt_one).2⟩

/-- C4 (counterexample): On the one-node edgeless graph with the single
source 0, the do-while body executes once, so the final depth counter is `1`,
exceeding the claimed bound `n - 1 = 0`. -/
theorem C4_counterexample :
    depthF 1 1 (fun _ _ => false) (fun _ => 0) = 1 ∧
    ¬(depthF 1 1 (fun _ _ => false) (fun _ => 0) ≤ 1 - 1) := by
  constructor
  · decide
  · decide

end Claims2

section Claims3

/-- C6 (amended): When every selected source has no outgoing edges the
initial frontier is empty, so the do-while body executes exactly once: the
final depth counter is `1` (not `0`: the body of a do-while always runs), one
depth-history matrix containing no entries is recorded, and the backward loop
performs zero iterations (`bc_update` is returned as initialized). -/
theorem C6_no_out_edges (n ns : ℕ) (A : Fin n → Fin n → Bool)
    (srcs : Fin ns → Fin n) (h : ∀ (j : Fin ns) (v : Fin n), A (srcs j) v = false) :
    depthF n ns A srcs = 1 ∧
    histF n ns A srcs = [fun _ _ => none] ∧
    bcFinal n ns A srcs = processFrom n ns A srcs 0 (bcInit n ns) ∧
    processFrom n ns A srcs 0 (bcInit n ns) = bcInit n ns := by
  have hd1 : ∀ (j : Fin ns) (v : Fin n), dist n A (srcs j) v ≠ some 1 := by
    intro j v hc
    rcases dist_one_iff.mp hc with ⟨hA, -⟩
    rw [h j v] at hA
    cases hA
  have hE1 : frontierEmpty n ns (trajAt n ns A srcs 1) := by
    intro v j
    rw [(traj_inv 1).2 v j, if_neg]
    intro hc
    -- distance 2 needs a predecessor at distance 1
    obtain ⟨u, -, hu⟩ := dist_pred hc
    exact hd1 j u hu
  have hdepth : depthF n ns A srcs = 1 := by
    obtain ⟨-, h1, -, -, hmin, -⟩ := @fwdRun_spec n ns A srcs
    by_contra hne
    exact hmin 1 (le_refl 1) (by omega) hE1
  refine ⟨hdepth, ?_, ?_, rfl⟩
  · rw [histF_eq, hdepth]
    rw [show List.range 1 = [0] from rfl, List.map_cons, List.map_nil]
    congr 1
    funext v j
    rw [Sspec, if_neg (hd1 j v)]
  · rw [bcFinal, hdepth]

/-- Witness for C6 at a concrete input: two nodes, single edge `1 → 0`,
source `0` (which has no outgoing edges). -/
theorem C6_witness :
    depthF 2 1 (fun a b => a.val == 1 && b.val == 0) (fun _ => 0) = 1 ∧
    histF 2 1 (fun a b => a.val == 1 && b.val == 0) (fun _ => 0) = [fun _ _ => none] :=
  ⟨(C6_no_out_edges 2 1 (fun a b => a.val == 1 && b.val == 0) (fun _ => 0)
      (fun j v => by fin_cases v <;> rfl)).1,
   (C6_no_out_edges 2 1 (fun a b => a.val == 1 && b.val == 0) (fun _ => 0)
      (fun j v => by fin_cases v <;> rfl)).2.1⟩

/-- C6 (counterexample): Two nodes with the single edge `1 → 0` and
source list `{0}`: every selected source has no outgoing edges, yet the final
depth counter is `1`, not `0` as claimed — the do-while body always executes
at least once. -/
theorem C6_counterexample :
    depthF 2 1 (fun a b => a.val == 1 && b.val == 0) (fun _ => 0) = 1 ∧
    depthF 2 1 (fun a b => a.val == 1 && b.val == 0) (fun _ => 0) ≠ 0 := by
  constructor
  · decide
  · decide

/-- C7: A node with no incident edges receives a zero result: its final
centrality equals the `-num_sources` baseline plus what the row reduction
adds, and that total is `0`. -/
theorem C7_isolated_node (n ns : ℕ) (A : Fin n → Fin n → Bool)
    (srcs : Fin ns → Fin n) (i : Fin n)
    (hin : ∀ u, A u i = false) (_hout : ∀ u, A i u = false) :
    centralityV n ns A srcs i
      = some (-(ns : ℚ) + ∑ j : Fin ns, (bcFinal n ns A srcs i j).getD 0) ∧
    -(ns : ℚ) + (∑ j : Fin ns, (bcFinal n ns A srcs i j).getD 0) = 0 := by
  have hterm : ∀ j : Fin ns, bcVal n ns A srcs 1 i j = 1 := by
    intro j
    rw [bcVal]
    cases hd : dist n A (srcs j) i with
    | none => rfl
    | some d =>
      dsimp only
      rcases Nat.eq_zero_or_pos d with h0 | hpos
      · subst h0
        rw [if_neg (by omega)]
      · exfalso
        obtain ⟨d', rfl⟩ : ∃ d', d = d' + 1 := ⟨d - 1, by omega⟩
        obtain ⟨u, hA, -⟩ := dist_pred hd
        rw [hin u] at hA
        cases hA
  have hsum : (∑ j : Fin ns, (bcFinal n ns A srcs i j).getD 0) = (ns : ℚ) := by
    have heach : ∀ j : Fin ns, (bcFinal n ns A srcs i j).getD 0 = 1 := by
      intro j
      rw [bcFinal_char, Option.getD_some, hterm j]
    rw [Finset.sum_congr rfl (fun j _ => heach j), Finset.sum_const, Finset.card_univ,
      Fintype.card_fin, nsmul_eq_mul, mul_one]
  constructor
  · rw [centralityV_char]
    congr 2
    refine (Finset.sum_congr rfl (fun j _ => ?_))
    rw [bcFinal_char, Option.getD_some]
  · rw [hsum]
    ring

/-- Witness for C7 at a concrete input: the edgeless 2-node graph, node 1,
single source 0. -/
theorem C7_witness :
    centralityV 2 1 (fun _ _ => false) (fun _ => 0) 1
      = some (-(1 : ℚ) + ∑ j : Fin 1, (bcFinal 2 1 (fun _ _ => false) (fun _ => 0) 1 j).getD 0) ∧
    -(1 : ℚ) + (∑ j : Fin 1, (bcFinal 2 1 (fun _ _ => false) (fun _ => 0) 1 j).getD 0) = 0 :=
  C7_isolated_node 2 1 (fun _ _ => false) (fun _ => 0) 1 (fun _ => rfl) (fun _ => rfl)

/-- C8: On every successful run the result vector is produced by first
densely assigning the constant `-num_sources` to all `n` entries and then
PLUS-accumulating (not replacing) the row-wise PLUS-reduction of the
dependency matrix, so `result[i] = -num_sources + Σ_j bc_update[i,j]`. -/
theorem C8_reducer_formula (n ns : ℕ) (A : Fin n → Fin n → Bool)
    (srcs : Fin ns → Fin n) :
    centralityV n ns A srcs
      = reduceRowsAccum n ns (assignScalar n (-(ns : ℚ))) (bcFinal n ns A srcs) ∧
    (∀ i : Fin n, assignScalar n (-(ns : ℚ)) i = some (-(ns : ℚ))) ∧
    ∀ i : Fin n, centralityV n ns A srcs i
      = some (-(ns : ℚ) + ∑ j : Fin ns, (bcFinal n ns A srcs i j).getD 0) := by
  refine ⟨rfl, fun i => rfl, fun i => ?_⟩
  rw [centralityV_char]
  congr 2
  refine (Finset.sum_congr rfl (fun j _ => ?_))
  rw [bcFinal_char, Option.getD_some]

end Claims3

section Claims4

/-- C5 (amended): `LAGraph_bc_batch` performs no input validation of its
own: a null adjacency handle is detected by the underlying engine only at the
first algebra call (the dimension query, with no allocation yet performed); a
null result handle only at the second algebra call (result-vector creation);
and an out-of-range source id only at the eighth algebra call
(`GrB_Matrix_build`), by which time five allocations (result vector,
descriptor, two index workspaces, paths matrix) have been performed.  Each
failure returns the engine's status through the `LAGRAPH_OK` check. -/
theorem C5_detection_by_engine (nn : ℕ) (cN sAll : Bool) (srcl : List ℕ) (nsrc : ℕ) :
    BCTrace.bcBatchEntry true nn cN sAll srcl nsrc
      = ⟨GrBInfo.nullPointer, 1, 0, false⟩ ∧
    BCTrace.bcBatchEntry false nn true sAll srcl nsrc
      = ⟨GrBInfo.nullPointer, 2, 0, false⟩ ∧
    ((srcl.take nsrc).any (fun s => decide (nn ≤ s)) = true →
      BCTrace.bcBatchEntry false nn false false srcl nsrc
        = ⟨GrBInfo.indexOutOfBounds, 8, 5, false⟩) := by
  refine ⟨rfl, rfl, fun h => ?_⟩
  rw [BCTrace.bcBatchEntry]
  simp [h]

/-- Witness for C5 at concrete inputs (source id 5 out of range for n = 3). -/
theorem C5_witness :
    BCTrace.bcBatchEntry true 3 false false [0] 1
      = ⟨GrBInfo.nullPointer, 1, 0, false⟩ ∧
    BCTrace.bcBatchEntry false 3 false false [5] 1
      = ⟨GrBInfo.indexOutOfBounds, 8, 5, false⟩ :=
  ⟨(C5_detection_by_engine 3 false false [0] 1).1,
   (C5_detection_by_engine 3 false false [5] 1).2.2 (by decide)⟩

/-- C5 (counterexample): Calling with a null adjacency handle: the
failure is reported with one algebra call already issued — the invalid input
is detected *by* the first algebra call, not before any algebra call as
claimed. -/
theorem C5_counterexample :
    (BCTrace.bcBatchEntry true 3 false false [0] 1).stat ≠ GrBInfo.success ∧
    (BCTrace.bcBatchEntry true 3 false false [0] 1).nAlgebraCalls ≠ 0 ∧
    (BCTrace.bcBatchEntry true 3 false false [0] 1).nAlgebraCalls = 1 := by
  refine ⟨by decide, by decide, by decide⟩

theorem LGVectorPrint_pr_neg (ty : VPrint.GType) (vec : VPrint.GVector) (pr : ℤ)
    (hpr : pr < 0) :
    VPrint.LGVectorPrint ty (some vec) pr (some ()) = (GrBInfo.success, []) := by
  rw [VPrint.LGVectorPrint]
  dsimp only
  rw [if_pos hpr]

/-- C10 (amended): `LAGraph_Vector_print` returns `GrB_NULL_POINTER` on a
null vector or file handle; with both handles non-null and a negative print
level it writes nothing at all and returns `GrB_SUCCESS`, *provided* the
vector's type is one of the eleven built-in types (always the case in a
non-SuiteSparse build, where the type is assumed `GrB_FP64`); for a vector of
a user-defined type under a SuiteSparse build it instead returns
`GrB_NOT_IMPLEMENTED`, still writing nothing. -/
theorem C10_vector_print (ss : Bool) (v : Option VPrint.GVector) (pr : ℤ)
    (f : Option Unit) :
    ((v = none ∨ f = none) →
      VPrint.LAGraphVectorPrint ss v pr f = (GrBInfo.nullPointer, [])) ∧
    (∀ vec, v = some vec → f ≠ none → pr < 0 →
      (ss = false ∨ vec.type ≠ VPrint.GType.gudt) →
      VPrint.LAGraphVectorPrint ss v pr f = (GrBInfo.success, [])) ∧
    (∀ vec, v = some vec → f ≠ none → ss = true → vec.type = VPrint.GType.gudt →
      VPrint.LAGraphVectorPrint ss v pr f = (GrBInfo.notImplemented, [])) := by
  refine ⟨?_, ?_, ?_⟩
  · intro hnull
    rcases hnull with hv | hf
    · subst hv
      rfl
    · subst hf
      cases v with
      | none => rfl
      | some vec => rfl
  · intro vec hv hf hpr hty
    subst hv
    cases f with
    | none => exact absurd rfl hf
    | some u =>
      cases u
      rw [VPrint.LAGraphVectorPrint]
      rcases hty with hss | hty
      · subst hss
        exact LGVectorPrint_pr_neg VPrint.GType.gfp64 vec pr hpr
      · cases hss : ss
        · exact LGVectorPrint_pr_neg VPrint.GType.gfp64 vec pr hpr
        · rcases vec with ⟨ty, sz, tup⟩
          cases ty
          case gudt => exact absurd rfl hty
          all_goals exact LGVectorPrint_pr_neg _ _ pr hpr
  · intro vec hv hf hss hty
    subst hv
    subst hss
    cases f with
    | none => exact absurd rfl hf
    | some u =>
      cases u
      rw [VPrint.LAGraphVectorPrint]
      rw [hty]
      rfl

/-- Witness for C10 at concrete inputs. -/
theorem C10_witness :
    VPrint.LAGraphVectorPrint true none (-1) (some ()) = (GrBInfo.nullPointer, []) ∧
    VPrint.LAGraphVectorPrint true (some ⟨VPrint.GType.gfp64, 4, [(0, 2)]⟩) (-1) (some ())
      = (GrBInfo.success, []) :=
  ⟨(C10_vector_print true none (-1) (some ())).1 (Or.inl rfl),
   (C10_vector_print true (some ⟨VPrint.GType.gfp64, 4, [(0, 2)]⟩) (-1) (some ())).2.1
     ⟨VPrint.GType.gfp64, 4, [(0, 2)]⟩ rfl (fun h => by cases h) (by decide)
     (Or.inr (fun h => by cases h))⟩

/-- C10 (counterexample): A vector of a user-defined type under a
SuiteSparse build, with a non-null file handle and `pr = -1`: the call
returns `GrB_NOT_IMPLEMENTED`, not `GrB_SUCCESS` as claimed (it still writes
nothing). -/
theorem C10_counterexample :
    (VPrint.LAGraphVectorPrint true (some ⟨VPrint.GType.gudt, 0, []⟩) (-1) (some ())).1
      ≠ GrBInfo.success ∧
    VPrint.LAGraphVectorPrint true (some ⟨VPrint.GType.gudt, 0, []⟩) (-1) (some ())
      = (GrBInfo.notImplemented, []) := by
  refine ⟨by decide, rfl⟩

end Claims4
